import Mathlib

/-!
vvmap: a delta-based CRDT map

Shallow embedding of `src/vvmap.go` and theorems about it.

Modelling conventions.

* A Go `map[K]T` is an association list with pairwise distinct keys
  (`AList`).  A lookup of a missing key yields the zero value, an assignment
  `m[k] = x` is `AList.insert`, and a `range` loop is a left fold over the
  entries.  Go leaves the iteration order unspecified; every order is the
  entry list of some `AList`, so a statement quantified over all maps
  covers every order.  Two Go maps are the same map when all their lookups
  agree.
* `uint64` counters are natural numbers; the increment in `Set` is taken
  modulo `2 ^ 64`.
* `interface{}` is `Option V`: `none` is Go's `nil`.
* A `*Map` receiver is a value that the mutating operations return updated.
  `Delta.current` is, in Go, the producer's version map itself and not a
  copy; the embedding reads it as the content of that map at the moment
  `Merge` consumes the delta, which is exact as long as the producer is not
  written between `Delta` and `Merge` (`Merge` itself never changes the
  contents of `delta.current`: merging a map's own delta writes nothing to
  its version vector).  Where the sharing itself is the question, the
  definitions of namespace `Ref` keep the version maps in a heap and let Maps
  and Deltas hold addresses; their values at a heap are the Maps and Deltas
  above (`Ref_Set_val`, `Ref_Merge_val`, `Ref_Delta_val`).
-/

namespace vvmap

/-- ID of node; `type ID string`. -/
abbrev ID := String

/-- VersionVector: vector of node versions keyed by their ID; `map[ID]uint64`. -/
abbrev VersionVector := AList (fun _ : ID => Nat)

/-- The index expression `vv[id]` on a version vector: `0` when `id` is absent. -/
def VersionVector.get (vv : VersionVector) (id : ID) : Nat :=
  (vv.lookup id).getD 0

/-- Number of values of a `uint64`. -/
def uint64Size : Nat := 2 ^ 64

/-- VVDot is a version vector dot: the event with `Version` from node `SourceID`. -/
structure VVDot where
  SourceID : ID
  Version : Nat
deriving DecidableEq, Repr

/-- Record is a record stored in a VVMap; `Value` is an `interface{}`. -/
structure Record (V : Type) where
  Key : String
  Value : Option V
  Dot : VVDot
deriving DecidableEq, Repr

/-- ChooseLeftConflictResolver returns whether the left record is to be used. -/
abbrev ChooseLeftConflictResolver (V : Type) := String → Record V → Record V → Bool

/-- Delta are the most recent records seen between `since` and `current`. -/
structure Delta (V : Type) where
  since : VersionVector
  current : VersionVector
  records : List (Record V)

/-- Map is a delta based CRDT map. -/
structure Map (V : Type) where
  resolver : ChooseLeftConflictResolver V
  storage : AList (fun _ : String => Record V)
  version : VersionVector
  me : ID

variable {V : Type}

/-- New returns a new Map with the specified ID and conflict resolver. -/
def New (id : ID) (resolver : ChooseLeftConflictResolver V) : Map V :=
  { resolver := resolver, storage := ∅, version := ∅, me := id }

/-- Get returns the value set for key or nil if it does not exist. -/
def Map.Get (v : Map V) (key : String) : Option V :=
  match v.storage.lookup key with
  | some record => record.Value
  | none => none

/-- Set sets a value for a key. -/
def Map.Set (v : Map V) (key : String) (value : Option V) : Map V :=
  let version := v.version.insert v.me ((VersionVector.get v.version v.me + 1) % uint64Size)
  let record : Record V :=
    { Key := key, Value := value,
      Dot := { SourceID := v.me, Version := VersionVector.get version v.me } }
  { v with version := version, storage := v.storage.insert key record }

/-- Keys returns all the keys contained in the map. -/
def Map.Keys (v : Map V) : List String :=
  v.storage.entries.foldl (fun keys e => keys ++ [e.1]) []

/-- Version is the map's version (a duplicate of the version vector). -/
def Map.Version (v : Map V) : VersionVector :=
  v.version.entries.foldl (fun dup e => dup.insert e.1 e.2) ∅

/-- ID is the map's ID. -/
def Map.ID (v : Map V) : ID := v.me

/-- Delta generates a list of records that have not been seen by the
specified version vector. -/
def Map.Delta (v : Map V) (since : VersionVector) : Delta V :=
  let records := v.storage.entries.foldl
    (fun records e =>
      if VersionVector.get since e.2.Dot.SourceID < e.2.Dot.Version then records ++ [e.2]
      else records) []
  { since := since, current := v.version, records := records }

/-- Body of the first loop of `Merge`, for one record of the delta. -/
def mergeRecord (resolver : ChooseLeftConflictResolver V) (version current : VersionVector)
    (storage : AList (fun _ : String => Record V)) (record : Record V) :
    AList (fun _ : String => Record V) :=
  if record.Dot.Version < VersionVector.get version record.Dot.SourceID then storage
  else
    match storage.lookup record.Key with
    | none => storage.insert record.Key record
    | some loc =>
      if loc.Dot.Version ≤ VersionVector.get current loc.Dot.SourceID then
        storage.insert record.Key record
      else if resolver loc.Key loc record then storage.insert record.Key loc
      else storage.insert record.Key record

/-- Second loop of `Merge`: raise every entry that `current` has higher. -/
def mergeVersion (version current : VersionVector) : VersionVector :=
  current.entries.foldl
    (fun ver e => if VersionVector.get ver e.1 < e.2 then ver.insert e.1 e.2 else ver) version

/-- Merge merges a delta into the map. -/
def Map.Merge (v : Map V) (delta : vvmap.Delta V) : Map V :=
  { v with
    storage := delta.records.foldl (mergeRecord v.resolver v.version delta.current) v.storage
    version := mergeVersion v.version delta.current }

/-- The resolver of the package example: choose left if lexicographically greater
(`strings.Compare(leftVal, rightVal) > 0`).  The Go closure asserts that both
values are strings; on a `nil` value the assertion fails, which is read here as
not choosing left.  Go compares the bytes of the strings, which for UTF-8 text
is the order of the code points compared here. -/
def lexicographicResolver : ChooseLeftConflictResolver String :=
  fun _ left right =>
    match left.Value, right.Value with
    | some leftVal, some rightVal => decide (rightVal < leftVal)
    | _, _ => false

/-- The resolver of the package tests: always choose left. -/
def alwaysLeftResolver : ChooseLeftConflictResolver V := fun _ _ _ => true

/-- What the body of the first loop of `Merge` leaves under the key of the
record it processes, as a function of what was stored there before. -/
def mergeOutcome (resolver : ChooseLeftConflictResolver V) (version current : VersionVector)
    (old : Option (Record V)) (record : Record V) : Option (Record V) :=
  if record.Dot.Version < VersionVector.get version record.Dot.SourceID then old
  else
    match old with
    | none => some record
    | some loc =>
      if loc.Dot.Version ≤ VersionVector.get current loc.Dot.SourceID then some record
      else if resolver loc.Key loc record then some loc
      else some record

/-- The bidirectional exchange in which `a` merges first:
`a.Merge(b.Delta(a.Version()))` followed by `b.Merge(a.Delta(b.Version()))`.
The result is the pair of `a` and `b` after the exchange. -/
def exchange (a b : Map V) : Map V × Map V :=
  let a1 := a.Merge (b.Delta a.Version)
  let b1 := b.Merge (a1.Delta b.Version)
  (a1, b1)

/-- The synchronisation of the package example: alice merges from bob and from
tim, then bob merges from alice, then tim merges from alice.  The result is
alice, bob and tim afterwards. -/
def syncThree (alice bob tim : Map V) : Map V × Map V × Map V :=
  let alice1 := alice.Merge (bob.Delta alice.Version)
  let alice2 := alice1.Merge (tim.Delta alice1.Version)
  let bob1 := bob.Merge (alice2.Delta bob.Version)
  let tim1 := tim.Merge (alice2.Delta tim.Version)
  (alice2, bob1, tim1)

/-- Every stored record's `Key` is the key it is stored under. -/
def Map.KeysAgree (v : Map V) : Prop :=
  ∀ (k : String) (r : Record V), v.storage.lookup k = some r → r.Key = k

/-- The replica alice of the package tests after `alice.Set("lunch", "turkey")`. -/
def aliceLunch : Map String := (New "alice" lexicographicResolver).Set "lunch" (some "turkey")

/-- The replica bob of the package tests after `bob.Set("lunch", "ham")`. -/
def bobLunch : Map String := (New "bob" lexicographicResolver).Set "lunch" (some "ham")

/-- The delta `bob.Delta(alice.Version())` of the package tests. -/
def bobDelta : Delta String := bobLunch.Delta aliceLunch.Version

/-- A fresh replica alice with the lexicographic resolver of the package example. -/
def aliceFresh : Map String := New "alice" lexicographicResolver

/-- The delta `bob.Delta(alice.Version())` taken by a fresh alice from bob
after `bob.Set("lunch", "turkey")`. -/
def bobTurkeyDelta : Delta String :=
  ((New "bob" lexicographicResolver).Set "lunch" (some "turkey")).Delta aliceFresh.Version

/-- The replica alice after merging bob's delta and then writing "ham" under
"lunch" locally: `alice.Merge(d); alice.Set("lunch", "ham")`. -/
def aliceAfterOwnWrite : Map String :=
  (aliceFresh.Merge bobTurkeyDelta).Set "lunch" (some "ham")

/-- The replica alice of `TestMergeUsesResolverFunc` after `alice.Set("lunch", "turkey")`. -/
def aliceTest : Map String := (New "alice" alwaysLeftResolver).Set "lunch" (some "turkey")

/-- The delta `bob.Delta(alice.Version())` of `TestMergeUsesResolverFunc`. -/
def bobTestDelta : Delta String :=
  ((New "bob" alwaysLeftResolver).Set "lunch" (some "ham")).Delta aliceTest.Version

/-- A Map with ID "test" whose own counter holds the largest `uint64`. -/
def testAtMaxVersion : Map String :=
  { resolver := alwaysLeftResolver, storage := ∅,
    version := AList.singleton "test" 18446744073709551615, me := "test" }

/-- The operations of a Map. -/
inductive Op (V : Type) where
  | Set (key : String) (value : Option V)
  | Merge (delta : vvmap.Delta V)
  | Get (key : String)
  | Keys
  | Version
  | ID
  | Delta (since : VersionVector)

/-- The Map after one operation.  `Set` and `Merge` update it; `Get`, `Keys`,
`Version`, `ID` and `Delta` assign to nothing the Map owns. -/
def Map.apply (v : Map V) : Op V → Map V
  | Op.Set key value => v.Set key value
  | Op.Merge delta => v.Merge delta
  | Op.Get _ => v
  | Op.Keys => v
  | Op.Version => v
  | Op.ID => v
  | Op.Delta _ => v

/-- The Map after a sequence of operations. -/
def Map.run (v : Map V) (ops : List (Op V)) : Map V :=
  ops.foldl Map.apply v

/-- No `Set` of the operation wraps the counter of `i`: a `Set` on the Map whose
own ID is `i` finds that counter below the largest `uint64`. -/
def Map.NoWrapStep (v : Map V) (i : vvmap.ID) : Op V → Prop
  | Op.Set _ _ => i = v.me → VersionVector.get v.version i + 1 < uint64Size
  | _ => True

/-- No `Set` of the sequence wraps the counter of `i`. -/
def Map.NoWrap (v : Map V) (i : vvmap.ID) : List (Op V) → Prop
  | [] => True
  | op :: ops => v.NoWrapStep i op ∧ (v.apply op).NoWrap i ops

/-! ## The version maps as shared heap objects

In Go a `VersionVector` is a reference to a map object.  `Version` builds a new
object; `Delta` stores the Map's own object in `current` and the caller's
object in `since`.  The definitions below keep the version maps in a heap and
let Maps and Deltas hold addresses, so that this sharing is visible.  The
storage map of a Map is referenced by that Map alone (`Delta` copies the
records out of it), so it stays a value. -/

/-- The heap of version-map objects: the object at every address, and the next
free address. -/
structure Heap where
  cells : Nat → VersionVector
  next : Nat

/-- The empty heap. -/
def Heap.empty : Heap := { cells := fun _ => ∅, next := 0 }

/-- The map object at an address. -/
def Heap.read (h : Heap) (a : Nat) : VersionVector := h.cells a

/-- Replace the map object at an address (the effect of assignments `m[k] = x`). -/
def Heap.write (h : Heap) (a : Nat) (vv : VersionVector) : Heap :=
  { h with cells := Function.update h.cells a vv }

/-- A new map object (`make(VersionVector)` and what is then put in it). -/
def Heap.alloc (h : Heap) (vv : VersionVector) : Nat × Heap :=
  (h.next, { cells := Function.update h.cells h.next vv, next := h.next + 1 })

namespace Ref

/-- Delta, with `since` and `current` as references to version-map objects. -/
structure Delta (V : Type) where
  since : Nat
  current : Nat
  records : List (Record V)

/-- Map, with `version` as a reference to a version-map object. -/
structure Map (V : Type) where
  resolver : ChooseLeftConflictResolver V
  storage : AList (fun _ : String => Record V)
  version : Nat
  me : ID

/-- The Map as a value: its version map read from the heap. -/
def Map.val (h : Heap) (v : Map V) : vvmap.Map V :=
  { resolver := v.resolver, storage := v.storage, version := h.read v.version, me := v.me }

/-- The Delta as a value: its version maps read from the heap. -/
def Delta.val (h : Heap) (d : Delta V) : vvmap.Delta V :=
  { since := h.read d.since, current := h.read d.current, records := d.records }

/-- New returns a new Map; `make(VersionVector)` is a new object. -/
def New (h : Heap) (id : ID) (resolver : ChooseLeftConflictResolver V) : Map V × Heap :=
  ({ resolver := resolver, storage := ∅, version := (h.alloc ∅).1, me := id }, (h.alloc ∅).2)

/-- Set: the increment writes into the Map's version-map object. -/
def Map.Set (h : Heap) (v : Map V) (key : String) (value : Option V) : Map V × Heap :=
  let h1 := h.write v.version
    ((h.read v.version).insert v.me
      ((VersionVector.get (h.read v.version) v.me + 1) % uint64Size))
  let record : Record V :=
    { Key := key, Value := value,
      Dot := { SourceID := v.me, Version := VersionVector.get (h1.read v.version) v.me } }
  ({ v with storage := v.storage.insert key record }, h1)

/-- Version: `dup` is a new object filled entry by entry. -/
def Map.Version (h : Heap) (v : Map V) : Nat × Heap :=
  h.alloc ((h.read v.version).entries.foldl (fun dup e => dup.insert e.1 e.2) ∅)

/-- Delta: `since: since, current: v.version` store the two references. -/
def Map.Delta (h : Heap) (v : Map V) (since : Nat) : Delta V :=
  let records := v.storage.entries.foldl
    (fun records e =>
      if VersionVector.get (h.read since) e.2.Dot.SourceID < e.2.Dot.Version then
        records ++ [e.2]
      else records) []
  { since := since, current := v.version, records := records }

/-- Merge: both loops read `delta.current` through its reference; the second
loop writes into the Map's version-map object. -/
def Map.Merge (h : Heap) (v : Map V) (delta : Ref.Delta V) : Map V × Heap :=
  ({ v with
     storage := delta.records.foldl
       (mergeRecord v.resolver (h.read v.version) (h.read delta.current)) v.storage },
   h.write v.version (mergeVersion (h.read v.version) (h.read delta.current)))

end Ref

/-- A fresh Map "test" on the empty heap. -/
def refTest : Ref.Map String × Heap := Ref.New Heap.empty "test" alwaysLeftResolver

/-- The result of `test.Version()`. -/
def refTestVersion : Nat × Heap := refTest.1.Version refTest.2

/-- The delta `test.Delta(test.Version())`. -/
def refTestDelta : Ref.Delta String := refTest.1.Delta refTestVersion.2 refTestVersion.1

/-- The Map and the heap after `d := test.Delta(test.Version())` followed by
`test.Set("someKey", "someValue")`. -/
def refTestAfterSet : Ref.Map String × Heap :=
  refTest.1.Set refTestVersion.2 "someKey" (some "someValue")

/-- A rank of records that tells any two different records apart: by value
first, then key, source and version. -/
def recordRank (r : Record Nat) : Nat ×ₗ String ×ₗ String ×ₗ Nat :=
  toLex ((match r.Value with
    | none => 0
    | some n => n + 1), toLex (r.Key, toLex (r.Dot.SourceID, r.Dot.Version)))

/-- A resolver that satisfies the resolver contract on all records: choose left
exactly when the left record has the greater rank. -/
def rankResolver : ChooseLeftConflictResolver Nat :=
  fun _ left right => decide (recordRank right < recordRank left)

/-- The replica bob after `bob.Set("k", 3)`. -/
def bobThree : Map Nat := (New "bob" rankResolver).Set "k" (some 3)

/-- The replica alice after `alice.Set("k", 2)`. -/
def aliceTwo : Map Nat := (New "alice" rankResolver).Set "k" (some 2)

/-- The delta `bob.Delta(alice.Version())`. -/
def bobThreeDelta : Delta Nat := bobThree.Delta aliceTwo.Version

/-- A Map after a sequence of `Set` calls, one for every pair of a key and a
value, in order. -/
def Map.SetAll (v : Map V) (writes : List (String × Option V)) : Map V :=
  writes.foldl (fun m w => m.Set w.1 w.2) v

/-- The last write to `key` in a sequence of writes: its position, counted from
1, and the value written. -/
def lastWrite : List (String × Option V) → String → Option (Nat × Option V)
  | [], _ => none
  | w :: ws, key =>
    match lastWrite ws key with
    | some (j, value) => some (j + 1, value)
    | none => if w.1 = key then some (1, w.2) else none

/-- The exchange step `a.Merge(b.Delta(a.Version()))`. -/
def mergedFrom (a b : Map V) : Map V := a.Merge (b.Delta a.Version)

/-- The replica bob after `2 ^ 64` calls `bob.Set("dinner", "ham")`. -/
def bobWrapped : Map String :=
  (New "bob" lexicographicResolver).SetAll (List.replicate uint64Size ("dinner", some "ham"))
/-- The stored dots are covered by the version vector: every record stored
under a key carries that key, and its version is at least 1 and at most the
Map's version-vector entry for its source. -/
def Map.Covered (v : Map V) : Prop :=
  ∀ (k : String) (r : Record V), v.storage.lookup k = some r →
    r.Key = k ∧ 1 ≤ r.Dot.Version ∧
      r.Dot.Version ≤ VersionVector.get v.version r.Dot.SourceID

/-- The Maps reachable from `New` by `Set` calls that do not wrap the own
counter and by `Merge` calls whose deltas were produced by the `Delta`
operation of reachable Maps.  In `merge`, `p` is the producer when `Delta` was
called and `p2` the producer when the delta is merged: the delta holds the
records selected from `p` and, `current` being the producer's own version map,
the version vector of `p2`, which is nowhere below that of `p`.  When the
producer was not written in between, `p2` is `p` and the delta is
`p.Delta since`. -/
inductive Reachable : Map V → Prop where
  | new (id : ID) (resolver : ChooseLeftConflictResolver V) : Reachable (New id resolver)
  | set (m : Map V) (key : String) (value : Option V) :
      Reachable m → VersionVector.get m.version m.me + 1 < uint64Size →
      Reachable (m.Set key value)
  | merge (m p p2 : Map V) (since : VersionVector) :
      Reachable m → Reachable p → Reachable p2 →
      (∀ i : ID, VersionVector.get p.version i ≤ VersionVector.get p2.version i) →
      Reachable (m.Merge
        { since := since, current := p2.version, records := (p.Delta since).records })

/-- The replica carol after `carol.Merge(bob.Delta(carol.Version()))`, taken
when bob had written 3 under "k": carol relays bob's first write. -/
def carolRelay : Map Nat :=
  (New "carol" rankResolver).Merge (bobThree.Delta (New "carol" rankResolver).Version)

/-- The replica bob after its second write, `bob.Set("k", 0)`. -/
def bobZero : Map Nat := bobThree.Set "k" (some 0)

/-- The replica tim after `tim.Merge(bob.Delta(tim.Version()))`, taken after
bob's second write, and `tim.Set("k", 1)`: tim has seen both writes of bob. -/
def timOne : Map Nat :=
  ((New "tim" rankResolver).Merge (bobZero.Delta (New "tim" rankResolver).Version)).Set "k"
    (some 1)

/-- The delta `carol.Delta(alice.Version())`: bob's first write, relayed. -/
def carolDelta : Delta Nat := carolRelay.Delta aliceTwo.Version

/-- The delta `tim.Delta(alice.Version())`. -/
def timOneDelta : Delta Nat := timOne.Delta aliceTwo.Version

/-- The replica tim after `tim.Set("k", 1)`, having seen nobody. -/
def timFresh : Map Nat := (New "tim" rankResolver).Set "k" (some 1)

/-- The delta `tim.Delta(alice.Version())` of the fresh tim. -/
def timFreshDelta : Delta Nat := timFresh.Delta aliceTwo.Version
/-- The replica alice after `alice.Set("k", 3)`. -/
def aliceThree : Map Nat := (New "alice" rankResolver).Set "k" (some 3)

/-- The replica bob after `bob.Merge(alice.Delta(bob.Version()))` and
`bob.Set("k", 1)`: bob has seen the write of alice and overwritten it. -/
def bobSeen : Map Nat :=
  ((New "bob" rankResolver).Merge (aliceThree.Delta (New "bob" rankResolver).Version)).Set "k"
    (some 1)

/-- The delta `bob.Delta(alice.Version())` of the bob that has seen alice. -/
def bobSeenDelta : Delta Nat := bobSeen.Delta aliceThree.Version

/-- The delta `tim.Delta(alice.Version())` of a tim that wrote 2 under "k" and
has seen nobody. -/
def timTwoDelta : Delta Nat :=
  ((New "tim" rankResolver).Set "k" (some 2)).Delta aliceThree.Version

/-- A resolver that satisfies the resolver contract and is not transitive: it
chooses by rank, except that a record with value 1 wins against a record with
value 3. -/
def cyclicResolver : ChooseLeftConflictResolver Nat :=
  fun key left right =>
    if left.Value = some 1 ∧ right.Value = some 3 then true
    else if left.Value = some 3 ∧ right.Value = some 1 then false
    else rankResolver key left right

/-- The replica alice with the cyclic resolver after `alice.Set("k", 2)`. -/
def aliceCyclic : Map Nat := (New "alice" cyclicResolver).Set "k" (some 2)

/-! ## Go maps: lookups after the loops of `Version`, `Delta` and `Merge` -/

namespace VersionVector

@[simp]
theorem get_empty (i : ID) : VersionVector.get ∅ i = 0 := rfl

theorem get_insert (vv : VersionVector) (i j : ID) (n : Nat) :
    VersionVector.get (vv.insert i n) j = if j = i then n else VersionVector.get vv j := by
  unfold VersionVector.get
  by_cases h : j = i
  · subst h; simp [AList.lookup_insert]
  · simp [AList.lookup_insert_ne h, h]

@[simp]
theorem get_insert_self (vv : VersionVector) (i : ID) (n : Nat) :
    VersionVector.get (vv.insert i n) i = n := by
  simp [get_insert]

theorem get_insert_ne (vv : VersionVector) {i j : ID} (n : Nat) (h : j ≠ i) :
    VersionVector.get (vv.insert i n) j = VersionVector.get vv j := by
  simp [get_insert, h]

end VersionVector

/-- Copying a Go map entry by entry into a fresh map preserves every lookup. -/
theorem lookup_foldl_insert {T : Type} (l : List (Sigma (fun _ : String => T)))
    (hl : l.NodupKeys) (acc : AList (fun _ : String => T)) (i : String) :
    (l.foldl (fun dup e => dup.insert e.1 e.2) acc).lookup i =
      match l.dlookup i with
      | some x => some x
      | none => acc.lookup i := by
  induction l generalizing acc with
  | nil => simp
  | cons e t ih =>
    obtain ⟨k, x⟩ := e
    rw [List.nodupKeys_cons] at hl
    rw [List.foldl_cons, ih hl.2]
    by_cases h : i = k
    · subst h
      have : List.dlookup i t = none := List.dlookup_eq_none.mpr hl.1
      simp [this, AList.lookup_insert]
    · have h2 : i ≠ (⟨k, x⟩ : Sigma (fun _ : String => T)).1 := h
      simp [List.dlookup_cons_ne _ _ h2, AList.lookup_insert_ne h]

/-- The duplicate returned by `Version` has the lookups of the version vector. -/
theorem lookup_Version (v : Map V) (i : ID) : v.Version.lookup i = v.version.lookup i := by
  unfold Map.Version
  rw [lookup_foldl_insert _ v.version.nodupKeys]
  unfold AList.lookup
  cases List.dlookup i v.version.entries <;> simp

@[simp]
theorem get_Version (v : Map V) (i : ID) :
    VersionVector.get v.Version i = VersionVector.get v.version i := by
  unfold VersionVector.get; rw [lookup_Version]

theorem foldl_append_if {α β : Type} (p : α → Prop) [DecidablePred p] (f : α → β)
    (l : List α) (init : List β) :
    l.foldl (fun acc e => if p e then acc ++ [f e] else acc) init
      = init ++ (l.filter (fun e => decide (p e))).map f := by
  induction l generalizing init with
  | nil => simp
  | cons e t ih =>
    rw [List.foldl_cons, ih]
    by_cases h : p e <;> simp [h, List.filter_cons]

/-- The loop of `Delta` keeps, in iteration order, the stored records that pass its test. -/
theorem Delta_records (v : Map V) (since : VersionVector) :
    (v.Delta since).records =
      (v.storage.entries.filter
        (fun e => decide (VersionVector.get since e.2.Dot.SourceID < e.2.Dot.Version))).map
        (fun e => e.2) := by
  unfold Map.Delta
  simp only []
  rw [foldl_append_if (fun e : Sigma (fun _ : String => Record V) =>
    VersionVector.get since e.2.Dot.SourceID < e.2.Dot.Version) (fun e => e.2)]
  simp

theorem get_foldl_raise (l : List (Sigma (fun _ : ID => Nat))) (hl : l.NodupKeys)
    (ver : VersionVector) (i : ID) :
    VersionVector.get
      (l.foldl (fun ver e => if VersionVector.get ver e.1 < e.2 then ver.insert e.1 e.2 else ver)
        ver) i = max (VersionVector.get ver i) ((l.dlookup i).getD 0) := by
  induction l generalizing ver with
  | nil => simp
  | cons e t ih =>
    obtain ⟨k, x⟩ := e
    rw [List.nodupKeys_cons] at hl
    rw [List.foldl_cons, ih hl.2]
    by_cases h : i = k
    · subst h
      have : List.dlookup i t = none := List.dlookup_eq_none.mpr hl.1
      simp only [this, List.dlookup_cons_eq, Option.getD_some, Option.getD_none]
      split <;> simp [VersionVector.get_insert] <;> omega
    · have h2 : i ≠ (⟨k, x⟩ : Sigma (fun _ : ID => Nat)).1 := h
      rw [List.dlookup_cons_ne _ _ h2]
      split <;> simp [VersionVector.get_insert, h]

/-- The second loop of `Merge` is an elementwise maximum. -/
theorem get_mergeVersion (version current : VersionVector) (i : ID) :
    VersionVector.get (mergeVersion version current) i
      = max (VersionVector.get version i) (VersionVector.get current i) := by
  unfold mergeVersion
  rw [get_foldl_raise _ current.nodupKeys]
  rfl

/-- One round of the first loop of `Merge`, read at the key of its record. -/
theorem lookup_mergeRecord_self (resolver : ChooseLeftConflictResolver V)
    (version current : VersionVector) (storage : AList (fun _ : String => Record V))
    (record : Record V) :
    (mergeRecord resolver version current storage record).lookup record.Key
      = mergeOutcome resolver version current (storage.lookup record.Key) record := by
  unfold mergeRecord mergeOutcome
  split
  · rfl
  · cases h : storage.lookup record.Key with
    | none => simp [AList.lookup_insert]
    | some loc =>
      simp only []
      split
      · simp [AList.lookup_insert]
      · split <;> simp [AList.lookup_insert]

/-- One round of the first loop of `Merge` touches no other key. -/
theorem lookup_mergeRecord_ne (resolver : ChooseLeftConflictResolver V)
    (version current : VersionVector) (storage : AList (fun _ : String => Record V))
    (record : Record V) (k : String) (hk : k ≠ record.Key) :
    (mergeRecord resolver version current storage record).lookup k = storage.lookup k := by
  unfold mergeRecord
  split
  · rfl
  · cases h : storage.lookup record.Key with
    | none => simp [AList.lookup_insert_ne hk]
    | some loc =>
      simp only []
      split
      · simp [AList.lookup_insert_ne hk]
      · split <;> simp [AList.lookup_insert_ne hk]

/-- Records with other keys leave the slot of `k` alone. -/
theorem lookup_foldl_mergeRecord_ne (resolver : ChooseLeftConflictResolver V)
    (version current : VersionVector) (records : List (Record V)) (k : String)
    (hk : ∀ r ∈ records, r.Key ≠ k) (storage : AList (fun _ : String => Record V)) :
    (records.foldl (mergeRecord resolver version current) storage).lookup k
      = storage.lookup k := by
  induction records generalizing storage with
  | nil => rfl
  | cons x t ih =>
    rw [List.foldl_cons, ih (fun r hr => hk r (List.mem_cons_of_mem _ hr))]
    exact lookup_mergeRecord_ne _ _ _ _ _ _ (fun h => hk x (List.mem_cons_self _ _) h.symm)

/-- Processing the same record a second time, against a version vector that
is not below the first one at the record's source, changes nothing more. -/
theorem mergeOutcome_again (resolver : ChooseLeftConflictResolver V)
    (version version2 current : VersionVector) (old : Option (Record V)) (record : Record V)
    (hv : VersionVector.get version record.Dot.SourceID
      ≤ VersionVector.get version2 record.Dot.SourceID) :
    mergeOutcome resolver version2 current
        (mergeOutcome resolver version current old record) record
      = mergeOutcome resolver version current old record := by
  unfold mergeOutcome
  by_cases h1 : record.Dot.Version < VersionVector.get version record.Dot.SourceID
  · simp [h1, lt_of_lt_of_le h1 hv]
  · simp only [h1, if_false]
    by_cases h0 : record.Dot.Version < VersionVector.get version2 record.Dot.SourceID
    · simp only [h0, if_true]
    · simp only [h0, if_false]
      cases old with
      | none =>
        simp only []
        split <;> simp
      | some loc =>
        simp only []
        by_cases h2 : loc.Dot.Version ≤ VersionVector.get current loc.Dot.SourceID
        · simp only [h2, if_true]
          split <;> simp
        · simp only [h2, if_false]
          by_cases h3 : resolver loc.Key loc record = true
          · simp [h3, h2]
          · have h3f : resolver loc.Key loc record = false := by simpa using h3
            simp only [h3f, Bool.false_eq_true, if_false]
            split_ifs <;> rfl

/-- The first loop of `Merge`, read at the key of a record that is the only
one of the delta with that key. -/
theorem lookup_foldl_mergeRecord_self (resolver : ChooseLeftConflictResolver V)
    (version current : VersionVector) (records : List (Record V)) (r : Record V)
    (hr : r ∈ records) (huniq : ∀ x ∈ records, x.Key = r.Key → x = r)
    (storage : AList (fun _ : String => Record V)) :
    (records.foldl (mergeRecord resolver version current) storage).lookup r.Key
      = mergeOutcome resolver version current (storage.lookup r.Key) r := by
  induction records generalizing storage with
  | nil => cases hr
  | cons x t ih =>
    rw [List.foldl_cons]
    have hu : ∀ y ∈ t, y.Key = r.Key → y = r :=
      fun y hy => huniq y (List.mem_cons_of_mem _ hy)
    by_cases hx : x.Key = r.Key
    · have hxr : x = r := huniq x (List.mem_cons_self _ _) hx
      subst hxr
      by_cases hmem : x ∈ t
      · rw [ih hmem hu, lookup_mergeRecord_self, mergeOutcome_again _ _ _ _ _ _ le_rfl]
      · have hne : ∀ y ∈ t, y.Key ≠ x.Key := by
          intro y hy hkey
          exact hmem (hu y hy hkey ▸ hy)
        rw [lookup_foldl_mergeRecord_ne _ _ _ _ _ hne, lookup_mergeRecord_self]
    · have hmem : r ∈ t := by
        rcases List.mem_cons.mp hr with h | h
        · exact absurd (h ▸ rfl) hx
        · exact h
      rw [ih hmem hu, lookup_mergeRecord_ne _ _ _ _ _ _ (fun h => hx h.symm)]

theorem VersionVector.get_singleton (i j : ID) (n : Nat) :
    VersionVector.get (AList.singleton i n) j = if j = i then n else 0 := by
  rw [← AList.insert_empty, VersionVector.get_insert]; rfl

theorem lookup_singleton {T : Type} (k j : String) (x : T) :
    (AList.singleton k x : AList (fun _ : String => T)).lookup j
      = if j = k then some x else none := by
  by_cases h : j = k
  · subst h
    rw [if_pos rfl]
    exact List.dlookup_cons_eq _ _ _
  · rw [if_neg h]
    show List.dlookup j [(⟨k, x⟩ : Sigma (fun _ : String => T))] = none
    rw [List.dlookup_cons_ne _ (⟨k, x⟩ : Sigma (fun _ : String => T)) h]
    rfl

@[simp]
theorem Delta_current (v : Map V) (since : VersionVector) :
    (v.Delta since).current = v.version := rfl

/-- A fresh Map after one `Set`. -/
theorem Set_New (resolver : ChooseLeftConflictResolver V) (id : ID) (k : String) (v : Option V) :
    (New id resolver).Set k v =
      { resolver := resolver
        storage := AList.singleton k { Key := k, Value := v, Dot := { SourceID := id, Version := 1 } }
        version := AList.singleton id 1
        me := id } := by
  simp [New, Map.Set, uint64Size, VersionVector.get_singleton]

/-- The resolver of the package example chooses left exactly when the left
string is strictly greater. -/
theorem lexicographicResolver_spec (key : String) (l r : Record String) (a b : String)
    (hl : l.Value = some a) (hr : r.Value = some b) :
    lexicographicResolver key l r = true ↔ b < a := by
  simp [lexicographicResolver, hl, hr]

/-! ## C1: convergence of two replicas -/

/-- C1. Two Maps created by `New` with distinct IDs and the same resolver each
perform one `Set` on the same key `k`.  After the bidirectional exchange in
which A merges first, and equally after the exchange in which B merges first,
`A.Get(k)` equals `B.Get(k)`.  Under the resolver contract on the two records
(`resolver(k, X, Y)` is true exactly when `resolver(k, Y, X)` is false) the
value reached is moreover the same in both orders. -/
theorem C1_convergence_two_replicas (resolver : ChooseLeftConflictResolver V) (idA idB : ID)
    (hid : idA ≠ idB) (k : String) (va vb : Option V)
    (hres :
      resolver k { Key := k, Value := va, Dot := { SourceID := idA, Version := 1 } }
          { Key := k, Value := vb, Dot := { SourceID := idB, Version := 1 } } = true ↔
        resolver k { Key := k, Value := vb, Dot := { SourceID := idB, Version := 1 } }
          { Key := k, Value := va, Dot := { SourceID := idA, Version := 1 } } = false) :
    (exchange ((New idA resolver).Set k va) ((New idB resolver).Set k vb)).1.Get k
        = (exchange ((New idA resolver).Set k va) ((New idB resolver).Set k vb)).2.Get k ∧
    (exchange ((New idB resolver).Set k vb) ((New idA resolver).Set k va)).2.Get k
        = (exchange ((New idB resolver).Set k vb) ((New idA resolver).Set k va)).1.Get k ∧
    (exchange ((New idA resolver).Set k va) ((New idB resolver).Set k vb)).1.Get k
        = (exchange ((New idB resolver).Set k vb) ((New idA resolver).Set k va)).2.Get k := by
  rw [Set_New, Set_New]
  by_cases h : resolver k { Key := k, Value := va, Dot := { SourceID := idA, Version := 1 } }
      { Key := k, Value := vb, Dot := { SourceID := idB, Version := 1 } } = true
  · have h2 := hres.mp h
    simp [exchange, Map.Merge, Map.Get, Delta_records, mergeRecord, VersionVector.get_singleton,
      hid, Ne.symm hid, lookup_singleton, List.filter_cons, h, h2, mergeVersion,
      VersionVector.get_insert]
  · have h2 : resolver k { Key := k, Value := vb, Dot := { SourceID := idB, Version := 1 } }
        { Key := k, Value := va, Dot := { SourceID := idA, Version := 1 } } = true := by
      by_contra h3
      exact h (hres.mpr (by simpa using h3))
    simp [exchange, Map.Merge, Map.Get, Delta_records, mergeRecord, VersionVector.get_singleton,
      hid, Ne.symm hid, lookup_singleton, List.filter_cons, h, h2, mergeVersion,
      VersionVector.get_insert]

/-- Witness of C1: alice and bob writing "turkey" and "ham" under "lunch",
with the lexicographic resolver of the package example. -/
theorem C1_convergence_two_replicas_witness :
    "alice" ≠ "bob" ∧
    ((exchange ((New "alice" lexicographicResolver).Set "lunch" (some "turkey"))
          ((New "bob" lexicographicResolver).Set "lunch" (some "ham"))).1.Get "lunch"
        = (exchange ((New "alice" lexicographicResolver).Set "lunch" (some "turkey"))
          ((New "bob" lexicographicResolver).Set "lunch" (some "ham"))).2.Get "lunch" ∧
      (exchange ((New "bob" lexicographicResolver).Set "lunch" (some "ham"))
          ((New "alice" lexicographicResolver).Set "lunch" (some "turkey"))).2.Get "lunch"
        = (exchange ((New "bob" lexicographicResolver).Set "lunch" (some "ham"))
          ((New "alice" lexicographicResolver).Set "lunch" (some "turkey"))).1.Get "lunch" ∧
      (exchange ((New "alice" lexicographicResolver).Set "lunch" (some "turkey"))
          ((New "bob" lexicographicResolver).Set "lunch" (some "ham"))).1.Get "lunch"
        = (exchange ((New "bob" lexicographicResolver).Set "lunch" (some "ham"))
          ((New "alice" lexicographicResolver).Set "lunch" (some "turkey"))).2.Get "lunch") :=
  ⟨by decide,
    C1_convergence_two_replicas lexicographicResolver "alice" "bob" (by decide) "lunch"
      (some "turkey") (some "ham")
      (by
        have h1 : ("ham" : String) < "turkey" := by
          rw [String.lt_iff_toList_lt]; decide
        have h2 : ¬ ("turkey" : String) < "ham" := not_lt.mpr h1.le
        simp [lexicographicResolver, h1, h2])⟩

/-! ## C2: the three-replica scenario of the package example -/

/-- C2. Three Maps alice, bob, tim created by `New` with pairwise distinct IDs
and a resolver that chooses left exactly when the left value is strictly
greater than the right one in a total order on values; each writes one value
under `k`.  After alice merges from bob and from tim, bob merges from alice and
tim merges from alice, all three return the greatest of the three values for
`Get(k)`. -/
theorem C2_three_replica_scenario (W : Type) [LinearOrder W] (resolver : ChooseLeftConflictResolver W)
    (hres : ∀ (key : String) (l r : Record W) (a b : W),
      l.Value = some a → r.Value = some b → (resolver key l r = true ↔ b < a))
    (aliceID bobID timID : ID) (hab : aliceID ≠ bobID) (hat : aliceID ≠ timID)
    (hbt : bobID ≠ timID) (k : String) (va vb vt : W) :
    (syncThree ((New aliceID resolver).Set k (some va)) ((New bobID resolver).Set k (some vb))
        ((New timID resolver).Set k (some vt))).1.Get k = some (max va (max vb vt)) ∧
    (syncThree ((New aliceID resolver).Set k (some va)) ((New bobID resolver).Set k (some vb))
        ((New timID resolver).Set k (some vt))).2.1.Get k = some (max va (max vb vt)) ∧
    (syncThree ((New aliceID resolver).Set k (some va)) ((New bobID resolver).Set k (some vb))
        ((New timID resolver).Set k (some vt))).2.2.Get k = some (max va (max vb vt)) := by
  rw [Set_New, Set_New, Set_New]
  have rAB := hres k { Key := k, Value := some va, Dot := { SourceID := aliceID, Version := 1 } }
    { Key := k, Value := some vb, Dot := { SourceID := bobID, Version := 1 } } va vb rfl rfl
  have rAT := hres k { Key := k, Value := some va, Dot := { SourceID := aliceID, Version := 1 } }
    { Key := k, Value := some vt, Dot := { SourceID := timID, Version := 1 } } va vt rfl rfl
  have rBT := hres k { Key := k, Value := some vb, Dot := { SourceID := bobID, Version := 1 } }
    { Key := k, Value := some vt, Dot := { SourceID := timID, Version := 1 } } vb vt rfl rfl
  by_cases h1 : vb < va
  · by_cases h2 : vt < va
    · simp [syncThree, Map.Merge, Map.Get, Delta_records, mergeRecord, VersionVector.get_singleton,
        hab, hat, hbt, Ne.symm hab, Ne.symm hat, Ne.symm hbt, lookup_singleton, List.filter_cons,
        mergeVersion, VersionVector.get_insert, rAB, rAT, rBT, h1, h2]
      exact ⟨h1.le, h2.le⟩
    · simp [syncThree, Map.Merge, Map.Get, Delta_records, mergeRecord, VersionVector.get_singleton,
        hab, hat, hbt, Ne.symm hab, Ne.symm hat, Ne.symm hbt, lookup_singleton, List.filter_cons,
        mergeVersion, VersionVector.get_insert, rAB, rAT, rBT, h1, h2]
      rw [max_eq_right ((h1.trans_le (not_lt.mp h2)).le), max_eq_right (not_lt.mp h2)]
  · by_cases h2 : vt < vb
    · simp [syncThree, Map.Merge, Map.Get, Delta_records, mergeRecord, VersionVector.get_singleton,
        hab, hat, hbt, Ne.symm hab, Ne.symm hat, Ne.symm hbt, lookup_singleton, List.filter_cons,
        mergeVersion, VersionVector.get_insert, rAB, rAT, rBT, h1, h2]
      rw [max_eq_left h2.le, max_eq_right (not_lt.mp h1)]
    · simp [syncThree, Map.Merge, Map.Get, Delta_records, mergeRecord, VersionVector.get_singleton,
        hab, hat, hbt, Ne.symm hab, Ne.symm hat, Ne.symm hbt, lookup_singleton, List.filter_cons,
        mergeVersion, VersionVector.get_insert, rAB, rAT, rBT, h1, h2]
      rw [max_eq_right (not_lt.mp h2), max_eq_right ((not_lt.mp h1).trans (not_lt.mp h2))]

/-- Witness of C2: the package example, `k = "lunch"` with "turkey", "ham" and
"chicken"; all three replicas return "turkey". -/
theorem C2_three_replica_scenario_witness :
    ("alice" ≠ "bob" ∧ "alice" ≠ "tim" ∧ "bob" ≠ "tim") ∧
    (syncThree ((New "alice" lexicographicResolver).Set "lunch" (some "turkey"))
        ((New "bob" lexicographicResolver).Set "lunch" (some "ham"))
        ((New "tim" lexicographicResolver).Set "lunch" (some "chicken"))).1.Get "lunch" = some "turkey" ∧
    (syncThree ((New "alice" lexicographicResolver).Set "lunch" (some "turkey"))
        ((New "bob" lexicographicResolver).Set "lunch" (some "ham"))
        ((New "tim" lexicographicResolver).Set "lunch" (some "chicken"))).2.1.Get "lunch" = some "turkey" ∧
    (syncThree ((New "alice" lexicographicResolver).Set "lunch" (some "turkey"))
        ((New "bob" lexicographicResolver).Set "lunch" (some "ham"))
        ((New "tim" lexicographicResolver).Set "lunch" (some "chicken"))).2.2.Get "lunch" = some "turkey" := by
  have hmax : max ("turkey" : String) (max "ham" "chicken") = "turkey" := by
    have h1 : ("chicken" : String) ≤ "ham" := by
      rw [String.le_iff_toList_le]; decide
    have h2 : ("ham" : String) ≤ "turkey" := by
      rw [String.le_iff_toList_le]; decide
    rw [max_eq_left h1, max_eq_left h2]
  have h := C2_three_replica_scenario String lexicographicResolver lexicographicResolver_spec "alice" "bob" "tim"
    (by decide) (by decide) (by decide) "lunch" "turkey" "ham" "chicken"
  rw [hmax] at h
  exact ⟨⟨by decide, by decide, by decide⟩, h⟩

/-! ## C3: idempotence of `Merge` -/

theorem foldl_raise_fixed (l : List (Sigma (fun _ : ID => Nat))) (ver : VersionVector)
    (h : ∀ e ∈ l, e.2 ≤ VersionVector.get ver e.1) :
    l.foldl (fun ver e => if VersionVector.get ver e.1 < e.2 then ver.insert e.1 e.2 else ver)
      ver = ver := by
  induction l with
  | nil => rfl
  | cons e t ih =>
    rw [List.foldl_cons, if_neg (not_lt.mpr (h e (List.mem_cons_self _ _)))]
    exact ih (fun x hx => h x (List.mem_cons_of_mem _ hx))

theorem get_of_mem_entries (vv : VersionVector) (e : Sigma (fun _ : ID => Nat))
    (he : e ∈ vv.entries) : VersionVector.get vv e.1 = e.2 := by
  obtain ⟨i, n⟩ := e
  have : vv.lookup i = some n := AList.mem_lookup_iff.mpr he
  simp [VersionVector.get, this]

/-- Raising a version vector by `current` a second time changes nothing. -/
theorem mergeVersion_mergeVersion (version current : VersionVector) :
    mergeVersion (mergeVersion version current) current = mergeVersion version current := by
  have key : ∀ e ∈ current.entries,
      e.2 ≤ VersionVector.get (mergeVersion version current) e.1 := by
    intro e he
    rw [get_mergeVersion, get_of_mem_entries current e he]
    exact le_max_right _ _
  exact foldl_raise_fixed _ _ key

theorem lookup_Merge_of_mem (v : Map V) (delta : vvmap.Delta V) (r : Record V)
    (hr : r ∈ delta.records) (huniq : ∀ x ∈ delta.records, x.Key = r.Key → x = r) :
    (v.Merge delta).storage.lookup r.Key
      = mergeOutcome v.resolver v.version delta.current (v.storage.lookup r.Key) r :=
  lookup_foldl_mergeRecord_self _ _ _ _ _ hr huniq _

theorem lookup_Merge_of_not_mem (v : Map V) (delta : vvmap.Delta V) (k : String)
    (hk : ∀ r ∈ delta.records, r.Key ≠ k) :
    (v.Merge delta).storage.lookup k = v.storage.lookup k :=
  lookup_foldl_mergeRecord_ne _ _ _ _ _ hk _

/-- Go maps with the same lookups have the same entries, up to order. -/
theorem entries_perm_of_lookup {T : Type} (s t : AList (fun _ : String => T))
    (h : ∀ k, s.lookup k = t.lookup k) : s.entries.Perm t.entries :=
  List.lookup_ext s.nodupKeys t.nodupKeys (fun x y => by
    have := h x
    unfold AList.lookup at this
    rw [this])

/-- C3. Idempotence of `Merge`: for every Map `m` and every Delta `d` whose
records have pairwise distinct keys (as the records of any delta taken from one
storage have), merging `d` into `m` twice leaves the same version vector and
the same storage (the same record, or none, under every key; the same entries
up to the order of the Go map) as merging it once; resolver and ID are
untouched. -/
theorem C3_merge_idempotent (m : Map V) (d : vvmap.Delta V)
    (hd : (d.records.map (fun r => r.Key)).Nodup) :
    ((m.Merge d).Merge d).version = (m.Merge d).version ∧
    (∀ k : String, ((m.Merge d).Merge d).storage.lookup k = (m.Merge d).storage.lookup k) ∧
    ((m.Merge d).Merge d).storage.entries.Perm (m.Merge d).storage.entries ∧
    ((m.Merge d).Merge d).resolver = (m.Merge d).resolver ∧
    ((m.Merge d).Merge d).me = (m.Merge d).me := by
  have hlook : ∀ k : String,
      ((m.Merge d).Merge d).storage.lookup k = (m.Merge d).storage.lookup k := by
    intro k
    by_cases hk : ∃ r ∈ d.records, r.Key = k
    · obtain ⟨r, hr, rfl⟩ := hk
      have huniq : ∀ x ∈ d.records, x.Key = r.Key → x = r :=
        fun x hx hxr => List.inj_on_of_nodup_map hd hx hr hxr
      rw [lookup_Merge_of_mem _ _ _ hr huniq, lookup_Merge_of_mem _ _ _ hr huniq]
      apply mergeOutcome_again
      show _ ≤ VersionVector.get (mergeVersion m.version d.current) _
      rw [get_mergeVersion]
      exact le_max_left _ _
    · have hne : ∀ r ∈ d.records, r.Key ≠ k := fun r hr hrk => hk ⟨r, hr, hrk⟩
      rw [lookup_Merge_of_not_mem _ _ _ hne]
  exact ⟨mergeVersion_mergeVersion m.version d.current, hlook,
    entries_perm_of_lookup _ _ hlook, rfl, rfl⟩

/-- Witness of C3: alice merging `bob.Delta(alice.Version())` of the package
tests, a delta with the single record of bob. -/
theorem C3_merge_idempotent_witness :
    (bobDelta.records.map (fun r => r.Key)).Nodup ∧
    ((aliceLunch.Merge bobDelta).Merge bobDelta).version = (aliceLunch.Merge bobDelta).version ∧
    (∀ k : String, ((aliceLunch.Merge bobDelta).Merge bobDelta).storage.lookup k
      = (aliceLunch.Merge bobDelta).storage.lookup k) ∧
    ((aliceLunch.Merge bobDelta).Merge bobDelta).storage.entries.Perm
      (aliceLunch.Merge bobDelta).storage.entries ∧
    ((aliceLunch.Merge bobDelta).Merge bobDelta).resolver = (aliceLunch.Merge bobDelta).resolver ∧
    ((aliceLunch.Merge bobDelta).Merge bobDelta).me = (aliceLunch.Merge bobDelta).me :=
  have hd : (bobDelta.records.map (fun r => r.Key)).Nodup := by
    simp [bobDelta, bobLunch, aliceLunch, Set_New, Delta_records, List.filter_cons,
      VersionVector.get_singleton]
  ⟨hd, C3_merge_idempotent aliceLunch bobDelta hd⟩

/-! ## C4: a record whose version equals the local entry is not skipped -/

/-- What `Merge` does skip: a record of the delta whose version is strictly
below the local version-vector entry of its source leaves the slot of its key
as it was, whatever the resolver returns. -/
theorem Merge_skips_strictly_older (m : Map V) (d : vvmap.Delta V) (r : Record V)
    (hr : r ∈ d.records) (huniq : ∀ x ∈ d.records, x.Key = r.Key → x = r)
    (hseen : r.Dot.Version < VersionVector.get m.version r.Dot.SourceID) :
    (m.Merge d).storage.lookup r.Key = m.storage.lookup r.Key := by
  rw [lookup_Merge_of_mem m d r hr huniq]
  simp [mergeOutcome, hseen]

/-- C4 (the code at the failing input). Alice merges the delta `d` of bob
(one record `r`, "turkey" with dot (bob, 1)), writes "ham" under the same key
and is delivered `d` again.  Now `r.Dot.Version = 1 ≤ version[bob] = 1`, so `r`
is already seen, yet the second `Merge(d)` does not skip it (the code tests
`record.Dot.Version < v.version[...]`): the record stored under "lunch" was
alice's own later write ("ham", dot (alice, 1)) and is `r` afterwards. -/
theorem C4_seen_record_at_equal_version_not_skipped :
    bobTurkeyDelta.records
        = [{ Key := "lunch", Value := some "turkey", Dot := { SourceID := "bob", Version := 1 } }] ∧
    VersionVector.get aliceAfterOwnWrite.version "bob" = 1 ∧
    aliceAfterOwnWrite.storage.lookup "lunch"
        = some { Key := "lunch", Value := some "ham", Dot := { SourceID := "alice", Version := 1 } } ∧
    (aliceAfterOwnWrite.Merge bobTurkeyDelta).storage.lookup "lunch"
        = some { Key := "lunch", Value := some "turkey", Dot := { SourceID := "bob", Version := 1 } } ∧
    (aliceAfterOwnWrite.Merge bobTurkeyDelta).Get "lunch" = some "turkey" := by
  have h1 : ¬ ("turkey" : String) < "ham" := by
    rw [String.lt_iff_toList_lt]; decide
  have hne : ("alice" : String) ≠ "bob" := by decide
  have hne2 : ("bob" : String) ≠ "alice" := by decide
  simp [aliceAfterOwnWrite, bobTurkeyDelta, aliceFresh, Set_New, Delta_records, List.filter_cons,
    VersionVector.get_singleton, Map.Merge, Map.Set, Map.Get, mergeRecord, mergeVersion, New,
    VersionVector.get_insert, lookup_singleton, AList.lookup_insert, lexicographicResolver, h1,
    uint64Size, hne, hne2]

/-! ## C5: concurrent conflict -/

/-- C5. Merge step 3: in a Map whose stored records carry the key they are
stored under, for a record `r` of the delta that is the only one with its key,
if `r.Dot.Version > m.version[r.Dot.SourceID]`, a local record `l` is stored
under `r.Key` and `l.Dot.Version > d.current[l.Dot.SourceID]`, then after
`Merge(d)` the record under `r.Key` is `l` when `resolver(r.Key, l, r)` is true
and `r` when it is false. -/
theorem C5_concurrent_conflict_uses_resolver (m : Map V) (hm : m.KeysAgree) (d : vvmap.Delta V)
    (r : Record V) (hr : r ∈ d.records) (huniq : ∀ x ∈ d.records, x.Key = r.Key → x = r)
    (hnew : VersionVector.get m.version r.Dot.SourceID < r.Dot.Version)
    (l : Record V) (hl : m.storage.lookup r.Key = some l)
    (hconc : VersionVector.get d.current l.Dot.SourceID < l.Dot.Version) :
    (m.Merge d).storage.lookup r.Key = some (if m.resolver r.Key l r = true then l else r) := by
  rw [lookup_Merge_of_mem m d r hr huniq, hl]
  have hkey : l.Key = r.Key := hm r.Key l hl
  unfold mergeOutcome
  rw [if_neg (not_lt.mpr hnew.le)]
  simp only []
  rw [if_neg (not_le.mpr hconc), hkey]
  split <;> rfl

theorem aliceTest_keysAgree : aliceTest.KeysAgree := by
  intro k r h
  rw [aliceTest, Set_New] at h
  simp only [lookup_singleton] at h
  split at h
  · next hk => cases h; exact hk.symm
  · cases h

/-- Witness of C5: the case of `TestMergeUsesResolverFunc`.  Alice and bob,
both fresh, each `Set` "lunch"; alice merges `bob.Delta(alice.Version())` and
the always-left resolver of the test keeps alice's record. -/
theorem C5_concurrent_conflict_uses_resolver_witness :
    aliceTest.KeysAgree ∧
    ({ Key := "lunch", Value := some "ham", Dot := { SourceID := "bob", Version := 1 } }
        : Record String) ∈ bobTestDelta.records ∧
    VersionVector.get aliceTest.version "bob" < 1 ∧
    aliceTest.storage.lookup "lunch"
        = some { Key := "lunch", Value := some "turkey", Dot := { SourceID := "alice", Version := 1 } } ∧
    VersionVector.get bobTestDelta.current "alice" < 1 ∧
    (aliceTest.Merge bobTestDelta).storage.lookup "lunch"
        = some { Key := "lunch", Value := some "turkey", Dot := { SourceID := "alice", Version := 1 } } := by
  have hne : ("alice" : String) ≠ "bob" := by decide
  have hne2 : ("bob" : String) ≠ "alice" := by decide
  have hrec : bobTestDelta.records
      = [{ Key := "lunch", Value := some "ham", Dot := { SourceID := "bob", Version := 1 } }] := by
    simp [bobTestDelta, aliceTest, Set_New, Delta_records, List.filter_cons,
      VersionVector.get_singleton, hne2]
  have hmem : ({ Key := "lunch", Value := some "ham", Dot := { SourceID := "bob", Version := 1 } }
      : Record String) ∈ bobTestDelta.records := by rw [hrec]; exact List.mem_singleton.mpr rfl
  have hnew : VersionVector.get aliceTest.version "bob" < 1 := by
    simp [aliceTest, Set_New, VersionVector.get_singleton, hne2]
  have hl : aliceTest.storage.lookup "lunch"
      = some { Key := "lunch", Value := some "turkey", Dot := { SourceID := "alice", Version := 1 } } := by
    simp [aliceTest, Set_New, lookup_singleton]
  have hconc : VersionVector.get bobTestDelta.current "alice" < 1 := by
    simp [bobTestDelta, Set_New, VersionVector.get_singleton, hne]
  exact ⟨aliceTest_keysAgree, hmem, hnew, hl, hconc,
    C5_concurrent_conflict_uses_resolver aliceTest aliceTest_keysAgree bobTestDelta
      { Key := "lunch", Value := some "ham", Dot := { SourceID := "bob", Version := 1 } }
      hmem (by intro x hx _; rw [hrec] at hx; exact List.mem_singleton.mp hx) hnew
      { Key := "lunch", Value := some "turkey", Dot := { SourceID := "alice", Version := 1 } }
      hl hconc⟩

/-! ## C6: the version vector after `Merge` -/

/-- C6. After `Merge(d)` the version-vector entry of every ID `i` is the maximum
of the entry before the merge and `d.current[i]` (absent entries read as 0), and
the records of `d` have no influence on the resulting version vector: replacing
them by any other records gives the same version vector. -/
theorem C6_merge_version_elementwise_max (m : Map V) (d : vvmap.Delta V) (i : ID) :
    VersionVector.get (m.Merge d).version i
        = max (VersionVector.get m.version i) (VersionVector.get d.current i) ∧
    VersionVector.get (m.Merge d).Version i
        = max (VersionVector.get m.Version i) (VersionVector.get d.current i) ∧
    ∀ records : List (Record V),
      (m.Merge { d with records := records }).version = (m.Merge d).version := by
  refine ⟨?_, ?_, fun _ => rfl⟩
  · exact get_mergeVersion _ _ _
  · rw [get_Version, get_Version]
    exact get_mergeVersion _ _ _

theorem lookup_of_mem_entries (s : AList (fun _ : String => Record V))
    (e : Sigma (fun _ : String => Record V)) (he : e ∈ s.entries) :
    s.lookup e.1 = some e.2 := by
  obtain ⟨k, x⟩ := e
  exact AList.mem_lookup_iff.mpr he

/-- Membership in the records of a delta. -/
theorem mem_Delta_records (m : Map V) (since : VersionVector) (r : Record V) :
    r ∈ (m.Delta since).records ↔
      (∃ k : String, m.storage.lookup k = some r) ∧
        VersionVector.get since r.Dot.SourceID < r.Dot.Version := by
  rw [Delta_records]
  simp only [List.mem_map, List.mem_filter, decide_eq_true_eq]
  constructor
  · rintro ⟨e, ⟨he, hp⟩, rfl⟩
    exact ⟨⟨e.1, lookup_of_mem_entries _ e he⟩, hp⟩
  · rintro ⟨⟨k, hk⟩, hp⟩
    exact ⟨⟨k, r⟩, ⟨AList.mem_lookup_iff.mp hk, hp⟩, rfl⟩

/-- Multiplicity in the records of a delta. -/
theorem count_Delta_records [DecidableEq V] (m : Map V) (since : VersionVector) (r : Record V) :
    (m.Delta since).records.count r =
      if VersionVector.get since r.Dot.SourceID < r.Dot.Version then
        (m.storage.keys.filter (fun k => decide (m.storage.lookup k = some r))).length
      else 0 := by
  rw [Delta_records, List.count_eq_countP, List.countP_map, List.countP_filter]
  split
  · next hp =>
    rw [← List.countP_eq_length_filter, AList.keys, List.keys, List.countP_map]
    apply List.countP_congr
    intro e he
    have hlook := lookup_of_mem_entries m.storage e he
    simp only [Function.comp, hlook, Option.some.injEq, Bool.and_eq_true, beq_iff_eq,
      decide_eq_true_eq]
    constructor
    · rintro ⟨h, _⟩; exact h
    · intro h; exact ⟨h, h ▸ hp⟩
  · next hp =>
    rw [List.countP_eq_zero]
    intro e _ h
    simp only [Function.comp, Bool.and_eq_true, beq_iff_eq, decide_eq_true_eq] at h
    exact hp (h.1 ▸ h.2)

/-- A delta of a Map whose records carry their storage key has pairwise
distinct keys. -/
theorem Delta_records_nodup (m : Map V) (hm : m.KeysAgree) (since : VersionVector) :
    ((m.Delta since).records.map (fun r => r.Key)).Nodup := by
  rw [Delta_records, List.map_map]
  have hkeys : (m.storage.entries.filter
      (fun e => decide (VersionVector.get since e.2.Dot.SourceID < e.2.Dot.Version))).map
        ((fun r : Record V => r.Key) ∘ fun e => e.2)
      = (m.storage.entries.filter
      (fun e => decide (VersionVector.get since e.2.Dot.SourceID < e.2.Dot.Version))).map
        Sigma.fst := by
    apply List.map_congr_left
    intro e he
    exact hm e.1 e.2 (lookup_of_mem_entries _ e (List.mem_of_mem_filter he))
  rw [hkeys]
  exact (m.storage.nodupKeys.sublist (List.filter_sublist _))

/-! ## C7: delta minimality -/

/-- C7. The records of `m.Delta(since)` are exactly the records stored in `m`
whose dot satisfies `since[record.Dot.SourceID] < record.Dot.Version`: a record
occurs in the delta if and only if it is stored under some key and satisfies
the test; it occurs once for every key it is stored under (so exactly once when
stored under one key, and never when it fails the test or is not stored); and
in a Map whose records carry the key they are stored under no record and no
key occurs twice. -/
theorem C7_delta_minimality [DecidableEq V] (m : Map V) (since : VersionVector) (r : Record V) :
    (r ∈ (m.Delta since).records ↔
      (∃ k : String, m.storage.lookup k = some r) ∧
        VersionVector.get since r.Dot.SourceID < r.Dot.Version) ∧
    (m.Delta since).records.count r =
      (if VersionVector.get since r.Dot.SourceID < r.Dot.Version then
        (m.storage.keys.filter (fun k => decide (m.storage.lookup k = some r))).length
      else 0) ∧
    (m.KeysAgree → ((m.Delta since).records.map (fun x => x.Key)).Nodup ∧
      (m.Delta since).records.count r ≤ 1) := by
  refine ⟨mem_Delta_records m since r, count_Delta_records m since r, fun hm => ?_⟩
  have hnd := Delta_records_nodup m hm since
  exact ⟨hnd, List.nodup_iff_count_le_one.mp (List.Nodup.of_map _ hnd) r⟩

/-! ## C8: read your write -/

/-- C8. Local write visibility: for every Map `m`, key `k` and value `v`, after
`m.Set(k, v)`, `m.Get(k)` returns `v`, whatever was stored under `k` before. -/
theorem C8_get_after_set (m : Map V) (k : String) (v : Option V) :
    (m.Set k v).Get k = v := by
  simp [Map.Set, Map.Get, AList.lookup_insert]

/-! ## C9: `Set` and the own counter -/

/-- The version vector after `Set`. -/
theorem get_version_Set (m : Map V) (k : String) (v : Option V) (i : ID) :
    VersionVector.get (m.Set k v).version i
      = if i = m.me then (VersionVector.get m.version m.me + 1) % uint64Size
        else VersionVector.get m.version i := by
  simp [Map.Set, VersionVector.get_insert]

/-- C9 (counterexample). On a Map whose own counter is `2 ^ 64 - 1`, `Set`
leaves `Version()[ID()]` at 0, not at the value before plus 1. -/
theorem C9_set_wraps_at_max :
    VersionVector.get testAtMaxVersion.Version testAtMaxVersion.ID = 18446744073709551615 ∧
    VersionVector.get (testAtMaxVersion.Set "someKey" (some "someValue")).Version
        (testAtMaxVersion.Set "someKey" (some "someValue")).ID = 0 ∧
    VersionVector.get (testAtMaxVersion.Set "someKey" (some "someValue")).Version
        (testAtMaxVersion.Set "someKey" (some "someValue")).ID
      ≠ VersionVector.get testAtMaxVersion.Version testAtMaxVersion.ID + 1 := by
  have h1 : VersionVector.get testAtMaxVersion.Version testAtMaxVersion.ID
      = 18446744073709551615 := by
    simp [testAtMaxVersion, Map.ID, VersionVector.get_singleton]
  have h2 : VersionVector.get (testAtMaxVersion.Set "someKey" (some "someValue")).Version
      (testAtMaxVersion.Set "someKey" (some "someValue")).ID = 0 := by
    rw [get_Version, Map.ID, get_version_Set]
    simp [testAtMaxVersion, Map.Set, VersionVector.get_singleton, uint64Size]
  refine ⟨h1, h2, ?_⟩
  rw [h1, h2]
  decide

/-- C9 (amended). `Set` increments the own counter modulo `2 ^ 64`: after
`m.Set(k, v)`, `Version()[ID()]` is the value before plus 1 taken modulo
`2 ^ 64`, which is the value before plus 1 whenever that value is below
`2 ^ 64 - 1`; the version-vector entries of all other IDs are unchanged. -/
theorem C9_set_increments_own_counter (m : Map V) (k : String) (v : Option V) :
    VersionVector.get (m.Set k v).Version (m.Set k v).ID
        = (VersionVector.get m.Version m.ID + 1) % uint64Size ∧
    (VersionVector.get m.Version m.ID + 1 < uint64Size →
      VersionVector.get (m.Set k v).Version (m.Set k v).ID
        = VersionVector.get m.Version m.ID + 1) ∧
    (∀ i : ID, i ≠ m.ID →
      VersionVector.get (m.Set k v).Version i = VersionVector.get m.Version i) := by
  have hme : (m.Set k v).ID = m.ID := rfl
  have h1 : VersionVector.get (m.Set k v).Version (m.Set k v).ID
      = (VersionVector.get m.Version m.ID + 1) % uint64Size := by
    rw [hme, get_Version, get_Version, get_version_Set]
    simp [Map.ID]
  refine ⟨h1, fun h => ?_, fun i hi => ?_⟩
  · rw [h1, Nat.mod_eq_of_lt h]
  · rw [get_Version, get_Version, get_version_Set]
    exact if_neg hi

/-- Witness of C9: `TestSetIncrementsVersion`, a fresh Map "test" whose
counter goes from 0 to 1. -/
theorem C9_set_increments_own_counter_witness :
    VersionVector.get (New "test" (alwaysLeftResolver : ChooseLeftConflictResolver String)).Version
        (New "test" (alwaysLeftResolver : ChooseLeftConflictResolver String)).ID + 1
      < uint64Size ∧
    VersionVector.get
        ((New "test" (alwaysLeftResolver : ChooseLeftConflictResolver String)).Set "someKey"
          (some "someValue")).Version
        ((New "test" (alwaysLeftResolver : ChooseLeftConflictResolver String)).Set "someKey"
          (some "someValue")).ID
      = VersionVector.get
          (New "test" (alwaysLeftResolver : ChooseLeftConflictResolver String)).Version
          (New "test" (alwaysLeftResolver : ChooseLeftConflictResolver String)).ID + 1 :=
  have h : VersionVector.get
        (New "test" (alwaysLeftResolver : ChooseLeftConflictResolver String)).Version
        (New "test" (alwaysLeftResolver : ChooseLeftConflictResolver String)).ID + 1
      < uint64Size := by
    simp [New, Map.ID, uint64Size]
  ⟨h, (C9_set_increments_own_counter
    (New "test" (alwaysLeftResolver : ChooseLeftConflictResolver String)) "someKey"
    (some "someValue")).2.1 h⟩

/-! ## C10: monotonicity of the version vector -/

/-- One operation that does not wrap the counter of `i` does not lower it. -/
theorem get_version_apply_le (m : Map V) (i : ID) (op : Op V) (h : m.NoWrapStep i op) :
    VersionVector.get m.version i ≤ VersionVector.get (m.apply op).version i := by
  cases op with
  | Set key value =>
    show _ ≤ VersionVector.get (m.Set key value).version i
    rw [get_version_Set]
    split
    · next hi =>
      have hlt : VersionVector.get m.version i + 1 < uint64Size := h hi
      rw [← hi, Nat.mod_eq_of_lt hlt]
      exact Nat.le_succ _
    · exact le_rfl
  | Merge delta =>
    show _ ≤ VersionVector.get (mergeVersion m.version delta.current) i
    rw [get_mergeVersion]
    exact le_max_left _ _
  | Get _ => exact le_rfl
  | Keys => exact le_rfl
  | Version => exact le_rfl
  | ID => exact le_rfl
  | Delta _ => exact le_rfl

/-- C10 (counterexample). A `Set` on a Map whose own counter is `2 ^ 64 - 1`
lowers `Version()[ID()]` from `2 ^ 64 - 1` to 0. -/
theorem C10_set_at_max_decreases :
    VersionVector.get
        (testAtMaxVersion.apply (Op.Set "someKey" (some "someValue"))).Version "test"
      < VersionVector.get testAtMaxVersion.Version "test" := by
  rw [get_Version, get_Version]
  show VersionVector.get (testAtMaxVersion.Set "someKey" (some "someValue")).version "test" < _
  rw [get_version_Set]
  simp [testAtMaxVersion, VersionVector.get_singleton, uint64Size]

/-- C10 (amended). For every Map `m`, every ID `i` and every sequence of
operations (`Set`, `Merge`, `Get`, `Keys`, `Version`, `ID`, `Delta`; a single
operation is the sequence of length one) in which no `Set` is performed by the
Map with ID `i` while its own counter is `2 ^ 64 - 1`, `Version()[i]` after the
sequence is greater than or equal to `Version()[i]` before it. -/
theorem C10_version_monotone (m : Map V) (i : ID) (ops : List (Op V)) (h : m.NoWrap i ops) :
    VersionVector.get m.Version i ≤ VersionVector.get (m.run ops).Version i := by
  rw [get_Version, get_Version]
  induction ops generalizing m with
  | nil => exact le_rfl
  | cons op ops ih =>
    exact le_trans (get_version_apply_le m i op h.1) (ih (m.apply op) h.2)

/-- Witness of C10: a fresh Map "test" performing a `Set`, a `Merge` of bob's
delta, a `Get` and a `Delta`; its own counter goes from 0 to 1. -/
theorem C10_version_monotone_witness :
    (New "test" alwaysLeftResolver : Map String).NoWrap "test"
      [Op.Set "someKey" (some "someValue"), Op.Merge bobTestDelta, Op.Get "someKey",
        Op.Delta ∅] ∧
    VersionVector.get (New "test" alwaysLeftResolver : Map String).Version "test"
      ≤ VersionVector.get
        ((New "test" alwaysLeftResolver : Map String).run
          [Op.Set "someKey" (some "someValue"), Op.Merge bobTestDelta, Op.Get "someKey",
            Op.Delta ∅]).Version "test" :=
  have h : (New "test" alwaysLeftResolver : Map String).NoWrap "test"
      [Op.Set "someKey" (some "someValue"), Op.Merge bobTestDelta, Op.Get "someKey",
        Op.Delta ∅] := by
    refine ⟨fun _ => ?_, trivial, trivial, trivial, trivial⟩
    simp [New, uint64Size]
  ⟨h, C10_version_monotone _ "test" _ h⟩

/-! ## C13: `Set` stamps and overwrites unconditionally -/

/-- C13. After `m.Set(k, v)` the record stored under `k` is exactly
`(Key = k, Value = v, Dot = (me, n))` with `n` the Map's own version-vector
entry after the increment (the entry before plus 1, modulo `2 ^ 64`),
whatever was stored under `k` before; the records under all other keys are
unchanged; and the resolver is not consulted: with any other resolver in its
place the storage and the version vector after the call are the same. -/
theorem C13_set_stamps_and_overwrites (m : Map V) (k : String) (v : Option V) :
    (m.Set k v).storage.lookup k
        = some { Key := k, Value := v,
                 Dot := { SourceID := m.me,
                          Version := VersionVector.get (m.Set k v).version m.me } } ∧
    VersionVector.get (m.Set k v).version m.me
        = (VersionVector.get m.version m.me + 1) % uint64Size ∧
    (∀ k2 : String, k2 ≠ k → (m.Set k v).storage.lookup k2 = m.storage.lookup k2) ∧
    (∀ resolver2 : ChooseLeftConflictResolver V,
      ({ m with resolver := resolver2 }.Set k v).storage = (m.Set k v).storage ∧
      ({ m with resolver := resolver2 }.Set k v).version = (m.Set k v).version) := by
  refine ⟨?_, ?_, fun k2 hk => ?_, fun _ => ⟨rfl, rfl⟩⟩
  · simp [Map.Set, AList.lookup_insert]
  · simp [Map.Set]
  · simp [Map.Set, AList.lookup_insert_ne hk]

/-! ## C16: `Keys` -/

/-- The loop of `Keys` collects the keys of the storage in iteration order. -/
theorem Keys_eq (m : Map V) : m.Keys = m.storage.keys := by
  unfold Map.Keys
  have h := foldl_append_if (fun _ : Sigma (fun _ : String => Record V) => True)
    (fun e => e.1) m.storage.entries []
  simp only [if_true, List.nil_append] at h
  rw [h]
  simp [AList.keys, List.keys]

/-- C16. A key occurs in `m.Keys()` if and only if a record is stored under it,
no key occurs more than once, and for a Map just created by `New`, `Keys()` is
empty. -/
theorem C16_keys_exactly_present (m : Map V) (k : String) (id : ID)
    (resolver : ChooseLeftConflictResolver V) :
    (k ∈ m.Keys ↔ ∃ r : Record V, m.storage.lookup k = some r) ∧
    m.Keys.Nodup ∧
    m.Keys.count k ≤ 1 ∧
    (New id resolver).Keys = [] := by
  rw [Keys_eq]
  refine ⟨?_, m.storage.keys_nodup, List.nodup_iff_count_le_one.mp m.storage.keys_nodup k, rfl⟩
  rw [← AList.mem_keys, ← AList.lookup_isSome, Option.isSome_iff_exists]

/-! ## C17: `Get` on a missing key -/

/-- C17. When no record is stored under `k` (in particular in a Map just
created by `New`), `m.Get(k)` returns `nil`; when a record is stored under `k`,
`Get` returns that record's `Value`; and `Get` leaves the Map as it was. -/
theorem C17_get_missing_is_nil (m : Map V) (k : String) (id : ID)
    (resolver : ChooseLeftConflictResolver V) :
    (m.storage.lookup k = none → m.Get k = none) ∧
    (∀ r : Record V, m.storage.lookup k = some r → m.Get k = r.Value) ∧
    (New id resolver).Get k = none ∧
    m.apply (Op.Get k) = m := by
  refine ⟨fun h => ?_, fun r h => ?_, rfl, rfl⟩
  · simp [Map.Get, h]
  · simp [Map.Get, h]

/-! ## C18: merge without conflict -/

/-- C18. Merge step 2: for a record `r` of the delta that is the only one with
its key, if `r.Dot.Version > m.version[r.Dot.SourceID]` and either no record is
stored under `r.Key` or the stored record `l` has
`l.Dot.Version ≤ d.current[l.Dot.SourceID]`, then after `Merge(d)` the record
stored under `r.Key` is `r`, with the Map's resolver and with any other
resolver in its place. -/
theorem C18_merge_no_conflict_adopts (m : Map V) (d : vvmap.Delta V) (r : Record V)
    (hr : r ∈ d.records) (huniq : ∀ x ∈ d.records, x.Key = r.Key → x = r)
    (hnew : VersionVector.get m.version r.Dot.SourceID < r.Dot.Version)
    (hloc : m.storage.lookup r.Key = none ∨
      ∃ l : Record V, m.storage.lookup r.Key = some l ∧
        l.Dot.Version ≤ VersionVector.get d.current l.Dot.SourceID) :
    (m.Merge d).storage.lookup r.Key = some r ∧
    ∀ resolver2 : ChooseLeftConflictResolver V,
      ({ m with resolver := resolver2 }.Merge d).storage.lookup r.Key = some r := by
  have key : ∀ resolver2 : ChooseLeftConflictResolver V,
      ({ m with resolver := resolver2 }.Merge d).storage.lookup r.Key = some r := by
    intro resolver2
    rw [lookup_Merge_of_mem _ d r hr huniq]
    unfold mergeOutcome
    rw [if_neg (not_lt.mpr hnew.le)]
    rcases hloc with h | ⟨l, h, hle⟩
    · simp [h]
    · simp [h, hle]
  exact ⟨key m.resolver, key⟩

/-- Witness of C18: a fresh alice merges `bob.Delta(alice.Version())`; nothing is
stored under "lunch" and bob's record is adopted. -/
theorem C18_merge_no_conflict_adopts_witness :
    ({ Key := "lunch", Value := some "turkey", Dot := { SourceID := "bob", Version := 1 } }
        : Record String) ∈ bobTurkeyDelta.records ∧
    VersionVector.get aliceFresh.version "bob" < 1 ∧
    aliceFresh.storage.lookup "lunch" = none ∧
    (aliceFresh.Merge bobTurkeyDelta).storage.lookup "lunch"
        = some { Key := "lunch", Value := some "turkey",
                 Dot := { SourceID := "bob", Version := 1 } } := by
  have hrec : bobTurkeyDelta.records
      = [{ Key := "lunch", Value := some "turkey", Dot := { SourceID := "bob", Version := 1 } }] := by
    rw [bobTurkeyDelta, Set_New]
    simp [aliceFresh, Delta_records, List.filter_cons, New]
  have hmem : ({ Key := "lunch", Value := some "turkey", Dot := { SourceID := "bob", Version := 1 } }
      : Record String) ∈ bobTurkeyDelta.records := by rw [hrec]; exact List.mem_singleton.mpr rfl
  have hnew : VersionVector.get aliceFresh.version "bob" < 1 := by
    simp [aliceFresh, New]
  have hl : aliceFresh.storage.lookup "lunch" = none := rfl
  exact ⟨hmem, hnew, hl,
    (C18_merge_no_conflict_adopts aliceFresh bobTurkeyDelta
      { Key := "lunch", Value := some "turkey", Dot := { SourceID := "bob", Version := 1 } }
      hmem (by intro x hx _; rw [hrec] at hx; exact List.mem_singleton.mp hx) hnew
      (Or.inl hl)).1⟩

theorem Heap.read_write_self (h : Heap) (a : Nat) (vv : VersionVector) :
    (h.write a vv).read a = vv := by
  simp [Heap.read, Heap.write]

theorem Heap.read_write_ne (h : Heap) (a b : Nat) (vv : VersionVector) (hab : b ≠ a) :
    (h.write a vv).read b = h.read b := by
  simp [Heap.read, Heap.write, Function.update_noteq hab]

/-- The value of the Map after `Set` on the heap is `Set` on the value. -/
theorem Ref_Set_val (h : Heap) (v : Ref.Map V) (key : String) (value : Option V) :
    (v.Set h key value).1.val (v.Set h key value).2 = (v.val h).Set key value := by
  simp [Ref.Map.Set, Ref.Map.val, Map.Set, Heap.read_write_self]

/-- The value of the Map after `Merge` on the heap is `Merge` on the values. -/
theorem Ref_Merge_val (h : Heap) (v : Ref.Map V) (d : Ref.Delta V) :
    (v.Merge h d).1.val (v.Merge h d).2 = (v.val h).Merge (d.val h) := by
  simp [Ref.Map.Merge, Ref.Map.val, Ref.Delta.val, Map.Merge, Heap.read_write_self]

/-- The value of a Delta at the heap it was taken from is `Delta` on the values. -/
theorem Ref_Delta_val (h : Heap) (v : Ref.Map V) (since : Nat) :
    (v.Delta h since).val h = (v.val h).Delta (h.read since) := rfl

/-! ## C14: what `Delta` returns -/

/-- C14. The Delta `d` returned by `m.Delta(since)` has `d.since` equal to the
input `since` and `d.current` equal, entry by entry, to the Map's version vector
at call time, and the call leaves the Map as it was.  Read with the version
maps as heap objects: `d.since` is the caller's object and `d.current` is the
Map's own object, so reading them at call time gives `since` and the Map's
version vector. -/
theorem C14_delta_since_and_current (m : Map V) (since : VersionVector) (i : ID)
    (h : Heap) (v : Ref.Map V) (a : Nat) :
    (m.Delta since).since = since ∧
    (m.Delta since).current.lookup i = m.version.lookup i ∧
    VersionVector.get (m.Delta since).current i = VersionVector.get m.Version i ∧
    m.apply (Op.Delta since) = m ∧
    (v.Delta h a).since = a ∧
    (h.read (v.Delta h a).current).lookup i = (h.read v.version).lookup i := by
  refine ⟨rfl, rfl, ?_, rfl, rfl, rfl⟩
  rw [get_Version]
  rfl

/-! ## C15: `Delta.current` is the Map's own version map -/

/-- C15 (the code at the failing input). A fresh Map "test" takes
`d := test.Delta(test.Version())` and then performs
`test.Set("someKey", "someValue")`.  When `Delta` was called `d.current["test"]`
was 0; after the `Set` it is 1, because `d.current` is the Map's own version
map.  The vector returned by `Version()` is still 0 at "test". -/
theorem C15_delta_current_follows_later_set :
    refTestDelta.current = refTest.1.version ∧
    VersionVector.get (refTestVersion.2.read refTestDelta.current) "test" = 0 ∧
    VersionVector.get (refTestAfterSet.2.read refTestDelta.current) "test" = 1 ∧
    VersionVector.get (refTestAfterSet.2.read refTestVersion.1) "test" = 0 := by
  refine ⟨rfl, ?_, ?_, ?_⟩
  · simp [refTestDelta, refTestVersion, refTest, Ref.Map.Delta, Ref.Map.Version, Ref.New,
      Heap.alloc, Heap.read, Heap.empty]
  · simp [refTestAfterSet, refTestDelta, refTestVersion, refTest, Ref.Map.Delta, Ref.Map.Set,
      Ref.Map.Version, Ref.New, Heap.alloc, Heap.read, Heap.write, Heap.empty, uint64Size,
      VersionVector.get_singleton]
  · simp [refTestAfterSet, refTestDelta, refTestVersion, refTest, Ref.Map.Delta, Ref.Map.Set,
      Ref.Map.Version, Ref.New, Heap.alloc, Heap.read, Heap.write, Heap.empty, uint64Size,
      VersionVector.get_singleton]

/-! ## A resolver that chooses by rank; raising a version vector by two deltas -/

theorem recordRank_injective (x y : Record Nat) (h : recordRank x = recordRank y) : x = y := by
  obtain ⟨xk, xv, xs, xn⟩ := x
  obtain ⟨yk, yv, ys, yn⟩ := y
  simp only [recordRank, EmbeddingLike.apply_eq_iff_eq, Prod.mk.injEq] at h
  obtain ⟨hv, hk, hs, hn⟩ := h
  have hv2 : xv = yv := by
    cases xv <;> cases yv <;> simp_all
  subst hv2 hk hs hn
  rfl

/-- The resolver contract: the same concrete record is selected whichever of
the two is passed as left. -/
theorem rankResolver_contract (key : String) (x y : Record Nat) :
    (if rankResolver key x y = true then x else y)
      = (if rankResolver key y x = true then y else x) := by
  unfold rankResolver
  rcases lt_trichotomy (recordRank x) (recordRank y) with h | h | h
  · simp [h, not_lt.mpr h.le]
  · have := recordRank_injective x y h
    subst this
    simp
  · simp [h, not_lt.mpr h.le]

theorem rankResolver_of_value_lt (key : String) (l r : Record Nat) (a b : Nat)
    (hl : l.Value = some a) (hr : r.Value = some b) (h : b < a) :
    rankResolver key l r = true ∧ rankResolver key r l = false := by
  have hlt : recordRank r < recordRank l := by
    simp only [recordRank, hl, hr, Prod.Lex.lt_iff]
    left
    simpa using h
  simp [rankResolver, hlt, not_lt.mpr hlt.le]

theorem bobThreeDelta_eq : bobThreeDelta =
    { since := aliceTwo.Version, current := AList.singleton "bob" 1,
      records := [{ Key := "k", Value := some 3, Dot := { SourceID := "bob", Version := 1 } }] } := by
  have h : ("bob" : String) ≠ "alice" := by decide
  unfold bobThreeDelta bobThree aliceTwo
  rw [Set_New, Set_New]
  simp [Map.Delta, VersionVector.get_singleton, h]

/-- The second loop of `Merge`, entry by entry, absent entries told apart from
entries that hold 0. -/
theorem lookup_foldl_raise (l : List (Sigma (fun _ : ID => Nat))) (hl : l.NodupKeys)
    (ver : VersionVector) (i : ID) :
    (l.foldl (fun ver e => if VersionVector.get ver e.1 < e.2 then ver.insert e.1 e.2 else ver)
        ver).lookup i
      = if VersionVector.get ver i < (l.dlookup i).getD 0 then some ((l.dlookup i).getD 0)
        else ver.lookup i := by
  induction l generalizing ver with
  | nil => simp
  | cons e t ih =>
    obtain ⟨k, x⟩ := e
    rw [List.nodupKeys_cons] at hl
    rw [List.foldl_cons, ih hl.2]
    by_cases h : i = k
    · subst h
      have : List.dlookup i t = none := List.dlookup_eq_none.mpr hl.1
      simp only [this, List.dlookup_cons_eq, Option.getD_some, Option.getD_none,
        Nat.not_lt_zero, if_false]
      split <;> simp [AList.lookup_insert]
    · have h2 : i ≠ (⟨k, x⟩ : Sigma (fun _ : ID => Nat)).1 := h
      rw [List.dlookup_cons_ne _ _ h2]
      split <;> simp [VersionVector.get_insert, h, AList.lookup_insert_ne h]

theorem lookup_mergeVersion (version current : VersionVector) (i : ID) :
    (mergeVersion version current).lookup i
      = if VersionVector.get version i < VersionVector.get current i then
          some (VersionVector.get current i)
        else version.lookup i := by
  unfold mergeVersion
  rw [lookup_foldl_raise _ current.nodupKeys]
  rfl

/-- Raising a version vector by two vectors gives the same map in either order. -/
theorem lookup_mergeVersion_comm (version c1 c2 : VersionVector) (i : ID) :
    (mergeVersion (mergeVersion version c1) c2).lookup i
      = (mergeVersion (mergeVersion version c2) c1).lookup i := by
  simp only [lookup_mergeVersion, get_mergeVersion]
  split_ifs <;> first | rfl | (congr 1; omega)

/-- The outcome of one round depends on the version vector only through the
already-seen test. -/
theorem mergeOutcome_congr (resolver : ChooseLeftConflictResolver V)
    (version version2 current : VersionVector) (old : Option (Record V)) (record : Record V)
    (h : record.Dot.Version < VersionVector.get version record.Dot.SourceID ↔
      record.Dot.Version < VersionVector.get version2 record.Dot.SourceID) :
    mergeOutcome resolver version current old record
      = mergeOutcome resolver version2 current old record := by
  unfold mergeOutcome
  by_cases h1 : record.Dot.Version < VersionVector.get version record.Dot.SourceID
  · rw [if_pos h1, if_pos (h.mp h1)]
  · rw [if_neg h1, if_neg (fun h2 => h1 (h.mpr h2))]

theorem bobTurkeyDelta_eq : bobTurkeyDelta =
    { since := aliceFresh.Version, current := AList.singleton "bob" 1,
      records := [{ Key := "lunch", Value := some "turkey",
                    Dot := { SourceID := "bob", Version := 1 } }] } := by
  unfold bobTurkeyDelta
  rw [Set_New]
  simp [Map.Delta, aliceFresh, New]

/-! ## C19: a local write after a merge and redelivery of the delta -/

/-- C19 (the code at the failing input). A fresh alice merges the delta `d` of
bob (its record `r` is "turkey" under "lunch" with dot (bob, 1)), then performs
`Set("lunch", "ham")`, then merges `d` again.  `Get("lunch")` is then "turkey",
not the value "ham" written after the first merge: the already incorporated
record reaches the resolver, which prefers it, and replaces the later local
write. -/
theorem C19_redelivery_replaces_later_local_write :
    ({ Key := "lunch", Value := some "turkey", Dot := { SourceID := "bob", Version := 1 } }
        : Record String) ∈ bobTurkeyDelta.records ∧
    ((aliceFresh.Merge bobTurkeyDelta).Set "lunch" (some "ham")).Get "lunch" = some "ham" ∧
    (((aliceFresh.Merge bobTurkeyDelta).Set "lunch" (some "ham")).Merge bobTurkeyDelta).Get "lunch"
        = some "turkey" ∧
    (((aliceFresh.Merge bobTurkeyDelta).Set "lunch" (some "ham")).Merge bobTurkeyDelta).Get "lunch"
        ≠ some "ham" := by
  have h1 : ¬ ("turkey" : String) < "ham" := by
    rw [String.lt_iff_toList_lt]; decide
  have hne : ("alice" : String) ≠ "bob" := by decide
  have hne2 : ("bob" : String) ≠ "alice" := by decide
  have hget : (((aliceFresh.Merge bobTurkeyDelta).Set "lunch" (some "ham")).Merge
      bobTurkeyDelta).Get "lunch" = some "turkey" := by
    rw [bobTurkeyDelta_eq]
    simp [aliceFresh, Map.Merge, Map.Set, Map.Get, mergeRecord, mergeVersion, New,
      VersionVector.get_singleton, VersionVector.get_insert, lookup_singleton,
      AList.lookup_insert, lexicographicResolver, h1, uint64Size, hne, hne2]
  refine ⟨?_, ?_, hget, ?_⟩
  · rw [bobTurkeyDelta_eq]
    exact List.mem_singleton.mpr rfl
  · simp [Map.Set, Map.Get, AList.lookup_insert]
  · rw [hget]
    decide

/-! ## Maps populated by `Set` -/

theorem SetAll_cons (m : Map V) (w : String × Option V) (ws : List (String × Option V)) :
    m.SetAll (w :: ws) = (m.Set w.1 w.2).SetAll ws := rfl

theorem SetAll_me (m : Map V) (ws : List (String × Option V)) : (m.SetAll ws).me = m.me := by
  induction ws generalizing m with
  | nil => rfl
  | cons w ws ih => rw [SetAll_cons, ih]; rfl

/-- The resolver plays no part in a sequence of `Set` calls. -/
theorem SetAll_resolver (m : Map V) (resolver2 : ChooseLeftConflictResolver V)
    (ws : List (String × Option V)) :
    ({ m with resolver := resolver2 } : Map V).SetAll ws
      = { m.SetAll ws with resolver := resolver2 } := by
  induction ws generalizing m with
  | nil => rfl
  | cons w ws ih =>
    rw [SetAll_cons, SetAll_cons, ← ih]
    rfl

theorem get_version_SetAll_ne (m : Map V) (ws : List (String × Option V)) (i : ID)
    (hi : i ≠ m.me) :
    VersionVector.get (m.SetAll ws).version i = VersionVector.get m.version i := by
  induction ws generalizing m with
  | nil => rfl
  | cons w ws ih =>
    rw [SetAll_cons, ih (m.Set w.1 w.2) hi, get_version_Set, if_neg hi]

/-- The own counter after a non-empty sequence of `Set` calls. -/
theorem get_version_SetAll_me (m : Map V) (ws : List (String × Option V)) (hws : ws ≠ []) :
    VersionVector.get (m.SetAll ws).version m.me
      = (VersionVector.get m.version m.me + ws.length) % uint64Size := by
  induction ws generalizing m with
  | nil => exact absurd rfl hws
  | cons w ws ih =>
    rw [SetAll_cons]
    have hme : (m.Set w.1 w.2).me = m.me := rfl
    by_cases hnil : ws = []
    · subst hnil
      show VersionVector.get (m.Set w.1 w.2).version m.me = _
      rw [get_version_Set, if_pos rfl]
      rfl
    · have h := ih (m.Set w.1 w.2) hnil
      rw [hme, get_version_Set, if_pos rfl] at h
      rw [h, List.length_cons]
      unfold uint64Size
      omega

theorem lastWrite_cons (w : String × Option V) (ws : List (String × Option V)) (key : String) :
    lastWrite (w :: ws) key =
      match lastWrite ws key with
      | some (j, value) => some (j + 1, value)
      | none => if w.1 = key then some (1, w.2) else none := rfl

/-- The storage after a sequence of `Set` calls: under a key that was written,
the record of the last write to it, stamped with the counter that write
reached; under any other key, what was there before. -/
theorem lookup_SetAll (m : Map V) (ws : List (String × Option V)) (k : String) :
    (m.SetAll ws).storage.lookup k =
      match lastWrite ws k with
      | some (j, value) =>
        some { Key := k, Value := value,
               Dot := { SourceID := m.me,
                        Version := (VersionVector.get m.version m.me + j) % uint64Size } }
      | none => m.storage.lookup k := by
  induction ws generalizing m with
  | nil => rfl
  | cons w ws ih =>
    rw [SetAll_cons, ih (m.Set w.1 w.2)]
    have hme : (m.Set w.1 w.2).me = m.me := rfl
    rw [hme, get_version_Set, if_pos rfl, lastWrite_cons]
    cases hlw : lastWrite ws k with
    | some p =>
      obtain ⟨j, value⟩ := p
      simp only [Option.some.injEq, Record.mk.injEq, VVDot.mk.injEq, true_and]
      unfold uint64Size
      omega
    | none =>
      simp only []
      by_cases hk : w.1 = k
      · subst hk
        simp [Map.Set, AList.lookup_insert]
      · have hk2 : k ≠ w.1 := fun h => hk h.symm
        simp [hk, Map.Set, AList.lookup_insert_ne hk2]

theorem lastWrite_index (ws : List (String × Option V)) (k : String) (j : Nat)
    (value : Option V) (h : lastWrite ws k = some (j, value)) : 1 ≤ j ∧ j ≤ ws.length := by
  induction ws generalizing j value with
  | nil => cases h
  | cons w ws ih =>
    rw [lastWrite_cons] at h
    cases hlw : lastWrite ws k with
    | some p =>
      obtain ⟨j2, value2⟩ := p
      rw [hlw] at h
      simp only [Option.some.injEq, Prod.mk.injEq] at h
      have := ih j2 value2 hlw
      rw [List.length_cons]
      omega
    | none =>
      rw [hlw] at h
      simp only [] at h
      split at h
      · simp only [Option.some.injEq, Prod.mk.injEq] at h
        rw [List.length_cons]
        omega
      · cases h

theorem lastWrite_eq_none (ws : List (String × Option V)) (k : String) :
    lastWrite ws k = none ↔ ∀ w ∈ ws, w.1 ≠ k := by
  induction ws with
  | nil => simp [lastWrite]
  | cons w ws ih =>
    rw [lastWrite_cons]
    cases hlw : lastWrite ws k with
    | some p =>
      obtain ⟨j2, value2⟩ := p
      constructor
      · intro h; cases h
      · intro hall
        have hnone := ih.mpr (fun x hx => hall x (List.mem_cons_of_mem _ hx))
        rw [hlw] at hnone
        cases hnone
    | none =>
      have hall := ih.mp hlw
      by_cases hk : w.1 = k
      · constructor
        · intro h
          simp only [] at h
          rw [if_pos hk] at h
          cases h
        · intro h
          exact absurd hk (h w (List.mem_cons_self _ _))
      · constructor
        · intro _ x hx
          rcases List.mem_cons.mp hx with h | h
          · rw [h]; exact hk
          · exact hall x h
        · intro _
          simp only []
          rw [if_neg hk]

theorem lastWrite_replicate (n : Nat) (k : String) (value : Option V) :
    lastWrite (List.replicate (n + 1) (k, value)) k = some (n + 1, value) := by
  induction n with
  | zero => simp [lastWrite]
  | succ n ih =>
    rw [List.replicate_succ, lastWrite_cons, ih]

theorem lastWrite_replicate_ne (n : Nat) (k k2 : String) (value : Option V) (h : k ≠ k2) :
    lastWrite (List.replicate n (k, value)) k2 = none := by
  rw [lastWrite_eq_none]
  intro w hw
  rw [List.eq_of_mem_replicate hw]
  exact h
/-- The storage of a Map created by `New` and populated by `Set` calls. -/
theorem lookup_SetAll_New (id : ID) (resolver : ChooseLeftConflictResolver V)
    (ws : List (String × Option V)) (k : String) :
    ((New id resolver).SetAll ws).storage.lookup k =
      match lastWrite ws k with
      | some (j, value) =>
        some { Key := k, Value := value, Dot := { SourceID := id, Version := j % uint64Size } }
      | none => none := by
  rw [lookup_SetAll]
  have h0 : VersionVector.get (New id resolver).version (New id resolver).me = 0 := rfl
  rw [h0]
  simp only [Nat.zero_add]
  rfl

/-- The version vector of a Map created by `New` and populated by `Set` calls
holds 0 at every other ID. -/
theorem get_version_SetAll_New_ne (id : ID) (resolver : ChooseLeftConflictResolver V)
    (ws : List (String × Option V)) (i : ID) (hi : i ≠ id) :
    VersionVector.get ((New id resolver).SetAll ws).version i = 0 :=
  get_version_SetAll_ne (New id resolver) ws i hi

/-- After `a.Merge(b.Delta(a.Version()))`, for Maps populated by `Set` calls on
disjoint keys, with fewer than `2 ^ 64` calls on `b`: under a key written on
`b`, the record of the last write on `b`; under any other key, what `a` had. -/
theorem lookup_mergedFrom_SetAll (resolverA resolverB : ChooseLeftConflictResolver V)
    (idA idB : ID) (hid : idA ≠ idB) (writesA writesB : List (String × Option V))
    (hdisj : ∀ a ∈ writesA, ∀ b ∈ writesB, a.1 ≠ b.1)
    (hlen : writesB.length < uint64Size) (k : String) :
    (mergedFrom ((New idA resolverA).SetAll writesA)
        ((New idB resolverB).SetAll writesB)).storage.lookup k =
      match lastWrite writesB k with
      | some (j, value) =>
        some { Key := k, Value := value, Dot := { SourceID := idB, Version := j } }
      | none => ((New idA resolverA).SetAll writesA).storage.lookup k := by
  have hstored : ∀ (k2 : String) (x : Record V),
      ((New idB resolverB).SetAll writesB).storage.lookup k2 = some x →
        ∃ j value, lastWrite writesB k2 = some (j, value) ∧
          x = { Key := k2, Value := value, Dot := { SourceID := idB, Version := j } } := by
    intro k2 x hx
    rw [lookup_SetAll_New] at hx
    cases hlw : lastWrite writesB k2 with
    | none => rw [hlw] at hx; cases hx
    | some p =>
      obtain ⟨j, value⟩ := p
      rw [hlw] at hx
      have hj := lastWrite_index writesB k2 j value hlw
      have hmod : j % uint64Size = j := Nat.mod_eq_of_lt (lt_of_le_of_lt hj.2 hlen)
      simp only [hmod, Option.some.injEq] at hx
      exact ⟨j, value, rfl, hx.symm⟩
  unfold mergedFrom
  cases hlw : lastWrite writesB k with
  | some p =>
    obtain ⟨j, value⟩ := p
    simp only []
    have hj := lastWrite_index writesB k j value hlw
    have hmod : j % uint64Size = j := Nat.mod_eq_of_lt (lt_of_le_of_lt hj.2 hlen)
    have hB : ((New idB resolverB).SetAll writesB).storage.lookup k
        = some { Key := k, Value := value, Dot := { SourceID := idB, Version := j } } := by
      rw [lookup_SetAll_New, hlw]
      simp only [hmod]
    have hsince : VersionVector.get ((New idA resolverA).SetAll writesA).Version idB = 0 := by
      rw [get_Version]
      exact get_version_SetAll_New_ne idA resolverA writesA idB (Ne.symm hid)
    have hmem : ({ Key := k, Value := value, Dot := { SourceID := idB, Version := j } }
        : Record V) ∈ (((New idB resolverB).SetAll writesB).Delta
          ((New idA resolverA).SetAll writesA).Version).records := by
      rw [mem_Delta_records]
      refine ⟨⟨k, hB⟩, ?_⟩
      rw [hsince]
      exact hj.1
    have huniq : ∀ x ∈ (((New idB resolverB).SetAll writesB).Delta
        ((New idA resolverA).SetAll writesA).Version).records,
        x.Key = ({ Key := k, Value := value, Dot := { SourceID := idB, Version := j } }
          : Record V).Key →
        x = { Key := k, Value := value, Dot := { SourceID := idB, Version := j } } := by
      intro x hx hkey
      rw [mem_Delta_records] at hx
      obtain ⟨⟨k2, hk2⟩, _⟩ := hx
      obtain ⟨j2, value2, hlw2, hx2⟩ := hstored k2 x hk2
      have hkk : k2 = k := by rw [hx2] at hkey; exact hkey
      subst hkk
      rw [hlw] at hlw2
      simp only [Option.some.injEq, Prod.mk.injEq] at hlw2
      rw [hx2, ← hlw2.1, ← hlw2.2]
    have hA : ((New idA resolverA).SetAll writesA).storage.lookup k = none := by
      rw [lookup_SetAll_New]
      have hnotB : ¬ (∀ w ∈ writesB, w.1 ≠ k) := by
        intro hall
        have := (lastWrite_eq_none writesB k).mpr hall
        rw [hlw] at this
        cases this
      have hnone : lastWrite writesA k = none := by
        rw [lastWrite_eq_none]
        intro a ha hak
        apply hnotB
        intro b hb hbk
        exact hdisj a ha b hb (hak.trans hbk.symm)
      rw [hnone]
    have hmerge := lookup_Merge_of_mem ((New idA resolverA).SetAll writesA) _ _ hmem huniq
    simp only [] at hmerge
    rw [hmerge, hA]
    unfold mergeOutcome
    have hzero : VersionVector.get ((New idA resolverA).SetAll writesA).version idB = 0 :=
      get_version_SetAll_New_ne idA resolverA writesA idB (Ne.symm hid)
    simp [hzero]
  | none =>
    simp only []
    apply lookup_Merge_of_not_mem
    intro x hx hkey
    rw [mem_Delta_records] at hx
    obtain ⟨⟨k2, hk2⟩, _⟩ := hx
    obtain ⟨j2, value2, hlw2, hx2⟩ := hstored k2 x hk2
    have hkk : k2 = k := by rw [hx2] at hkey; exact hkey
    subst hkk
    rw [hlw] at hlw2
    cases hlw2
/-! ## C12: merge of disjoint keys -/

theorem Get_of_lookup_none (m : Map V) (k : String) (h : m.storage.lookup k = none) :
    m.Get k = none := by
  simp [Map.Get, h]

/-- C12 (counterexample). Alice writes "turkey" under "lunch"; bob calls
`Set("dinner", "ham")` `2 ^ 64` times, so that the counter of bob has wrapped to
0 and the record under "dinner" carries version 0.  No key is written on both,
bob's last written value under "dinner" is "ham", and yet after
`alice.Merge(bob.Delta(alice.Version()))`, `alice.Get("dinner")` is `nil`:
`Delta` tests `since[bob] < 0` and sends nothing. -/
theorem C12_wrapped_write_not_delivered :
    lastWrite (List.replicate uint64Size ("dinner", some "ham")) "dinner"
        = some (uint64Size, some "ham") ∧
    (∀ a ∈ [(("lunch", some "turkey") : String × Option String)],
      ∀ b ∈ List.replicate uint64Size (("dinner", some "ham") : String × Option String),
        a.1 ≠ b.1) ∧
    bobWrapped.storage.lookup "dinner"
        = some { Key := "dinner", Value := some "ham", Dot := { SourceID := "bob", Version := 0 } } ∧
    (mergedFrom ((New "alice" lexicographicResolver).SetAll [("lunch", some "turkey")])
        bobWrapped).Get "dinner" = none := by
  have hsize : uint64Size = 18446744073709551615 + 1 := by norm_num [uint64Size]
  have hlast : lastWrite (List.replicate uint64Size ("dinner", some "ham")) "dinner"
      = some (uint64Size, some "ham") := by
    rw [hsize]
    exact lastWrite_replicate _ _ _
  have hne : ("lunch" : String) ≠ "dinner" := by decide
  have hstored : ∀ (k : String) (x : Record String),
      bobWrapped.storage.lookup k = some x → x.Dot.Version = 0 := by
    intro k x hx
    rw [bobWrapped, lookup_SetAll_New] at hx
    by_cases hk : k = "dinner"
    · subst hk
      rw [hlast] at hx
      simp only [Nat.mod_self, Option.some.injEq] at hx
      rw [← hx]
    · rw [lastWrite_replicate_ne _ _ _ _ (fun h => hk h.symm)] at hx
      cases hx
  have hrec : ∀ since : VersionVector, (bobWrapped.Delta since).records = [] := by
    intro since
    rw [List.eq_nil_iff_forall_not_mem]
    intro x hx
    rw [mem_Delta_records] at hx
    obtain ⟨⟨k, hk⟩, hlt⟩ := hx
    rw [hstored k x hk] at hlt
    exact Nat.not_lt_zero _ hlt
  refine ⟨hlast, ?_, ?_, ?_⟩
  · intro a ha b hb
    rw [List.mem_singleton.mp ha, List.eq_of_mem_replicate hb]
    exact hne
  · rw [bobWrapped, lookup_SetAll_New, hlast]
    simp only [Nat.mod_self]
  · have hst : (mergedFrom ((New "alice" lexicographicResolver).SetAll [("lunch", some "turkey")])
        bobWrapped).storage
        = ((New "alice" lexicographicResolver).SetAll [("lunch", some "turkey")]).storage := by
      unfold mergedFrom Map.Merge
      simp only [hrec, List.foldl_nil]
    apply Get_of_lookup_none
    rw [hst, lookup_SetAll_New]
    simp [lastWrite, hne]

/-- C12 (amended). Two Maps A and B created by `New` with distinct IDs and
populated only by `Set`, with no key written on both and fewer than `2 ^ 64`
calls of `Set` on B.  After `A.Merge(B.Delta(A.Version()))`, `A.Get` returns A's
own last written value for every key written on A and B's last written value
for every key written on B, and the storage and version vector of A are the
same for every resolver of A. -/
theorem C12_merge_of_disjoint_keys (resolverA resolverB : ChooseLeftConflictResolver V)
    (idA idB : ID) (hid : idA ≠ idB) (writesA writesB : List (String × Option V))
    (hdisj : ∀ a ∈ writesA, ∀ b ∈ writesB, a.1 ≠ b.1)
    (hlen : writesB.length < uint64Size) :
    (∀ (k : String) (j : Nat) (value : Option V), lastWrite writesA k = some (j, value) →
      (mergedFrom ((New idA resolverA).SetAll writesA)
        ((New idB resolverB).SetAll writesB)).Get k = value) ∧
    (∀ (k : String) (j : Nat) (value : Option V), lastWrite writesB k = some (j, value) →
      (mergedFrom ((New idA resolverA).SetAll writesA)
        ((New idB resolverB).SetAll writesB)).Get k = value) ∧
    (∀ resolver2 : ChooseLeftConflictResolver V,
      (∀ k : String,
        (mergedFrom ((New idA resolver2).SetAll writesA)
            ((New idB resolverB).SetAll writesB)).storage.lookup k
          = (mergedFrom ((New idA resolverA).SetAll writesA)
            ((New idB resolverB).SetAll writesB)).storage.lookup k) ∧
      (mergedFrom ((New idA resolver2).SetAll writesA)
          ((New idB resolverB).SetAll writesB)).version
        = (mergedFrom ((New idA resolverA).SetAll writesA)
          ((New idB resolverB).SetAll writesB)).version) := by
  refine ⟨fun k j value hA => ?_, fun k j value hB => ?_, fun resolver2 => ⟨fun k => ?_, ?_⟩⟩
  · have hnone : lastWrite writesB k = none := by
      rw [lastWrite_eq_none]
      intro b hb hbk
      have hnotA : ¬ (∀ w ∈ writesA, w.1 ≠ k) := by
        intro hall
        have := (lastWrite_eq_none writesA k).mpr hall
        rw [hA] at this
        cases this
      apply hnotA
      intro a ha hak
      exact hdisj a ha b hb (hak.trans hbk.symm)
    unfold Map.Get
    rw [lookup_mergedFrom_SetAll resolverA resolverB idA idB hid writesA writesB hdisj hlen k,
      hnone]
    simp only []
    rw [lookup_SetAll_New, hA]
  · unfold Map.Get
    rw [lookup_mergedFrom_SetAll resolverA resolverB idA idB hid writesA writesB hdisj hlen k,
      hB]
  · rw [lookup_mergedFrom_SetAll resolver2 resolverB idA idB hid writesA writesB hdisj hlen k,
      lookup_mergedFrom_SetAll resolverA resolverB idA idB hid writesA writesB hdisj hlen k,
      lookup_SetAll_New, lookup_SetAll_New]
  · have h := SetAll_resolver (New idA resolverA) resolver2 writesA
    have hnew : ({ New idA resolverA with resolver := resolver2 } : Map V)
        = New idA resolver2 := rfl
    rw [hnew] at h
    rw [h]
    rfl

/-- Witness of C12: alice writes "turkey" under "lunch", bob writes "ham" under
"dinner". -/
theorem C12_merge_of_disjoint_keys_witness :
    "alice" ≠ "bob" ∧
    (∀ a ∈ [(("lunch", some "turkey") : String × Option String)],
      ∀ b ∈ [(("dinner", some "ham") : String × Option String)], a.1 ≠ b.1) ∧
    [(("dinner", some "ham") : String × Option String)].length < uint64Size ∧
    (mergedFrom ((New "alice" lexicographicResolver).SetAll [("lunch", some "turkey")])
        ((New "bob" lexicographicResolver).SetAll [("dinner", some "ham")])).Get "lunch"
      = some "turkey" ∧
    (mergedFrom ((New "alice" lexicographicResolver).SetAll [("lunch", some "turkey")])
        ((New "bob" lexicographicResolver).SetAll [("dinner", some "ham")])).Get "dinner"
      = some "ham" := by
  have hid : ("alice" : String) ≠ "bob" := by decide
  have hne : ("lunch" : String) ≠ "dinner" := by decide
  have hdisj : ∀ a ∈ [(("lunch", some "turkey") : String × Option String)],
      ∀ b ∈ [(("dinner", some "ham") : String × Option String)], a.1 ≠ b.1 := by
    intro a ha b hb
    rw [List.mem_singleton.mp ha, List.mem_singleton.mp hb]
    exact hne
  have hlen : [(("dinner", some "ham") : String × Option String)].length < uint64Size := by
    norm_num [uint64Size]
  have h := C12_merge_of_disjoint_keys lexicographicResolver lexicographicResolver "alice" "bob"
    hid [("lunch", some "turkey")] [("dinner", some "ham")] hdisj hlen
  exact ⟨hid, hdisj, hlen, h.1 "lunch" 1 (some "turkey") (by simp [lastWrite]),
    h.2.1 "dinner" 1 (some "ham") (by simp [lastWrite])⟩
/-! ## C20: stored dots are covered by the version vector -/

/-- One round of the first loop of `Merge` leaves under the key of its record
either what was there or the record. -/
theorem mergeOutcome_cases (resolver : ChooseLeftConflictResolver V)
    (version current : VersionVector) (old : Option (Record V)) (record : Record V) :
    mergeOutcome resolver version current old record = old ∨
      mergeOutcome resolver version current old record = some record := by
  unfold mergeOutcome
  split
  · exact Or.inl rfl
  · cases old with
    | none => exact Or.inr rfl
    | some loc =>
      simp only []
      split
      · exact Or.inr rfl
      · split
        · exact Or.inl rfl
        · exact Or.inr rfl

/-- The first loop of `Merge` keeps every stored record under its own key and
within a bound that holds for the storage and for the records of the delta. -/
theorem foldl_mergeRecord_covered (resolver : ChooseLeftConflictResolver V)
    (version current : VersionVector) (bound : ID → Nat) (records : List (Record V))
    (hrec : ∀ r ∈ records, 1 ≤ r.Dot.Version ∧ r.Dot.Version ≤ bound r.Dot.SourceID)
    (storage : AList (fun _ : String => Record V))
    (hst : ∀ (k : String) (r : Record V), storage.lookup k = some r →
      r.Key = k ∧ 1 ≤ r.Dot.Version ∧ r.Dot.Version ≤ bound r.Dot.SourceID) :
    ∀ (k : String) (r : Record V),
      (records.foldl (mergeRecord resolver version current) storage).lookup k = some r →
        r.Key = k ∧ 1 ≤ r.Dot.Version ∧ r.Dot.Version ≤ bound r.Dot.SourceID := by
  induction records generalizing storage with
  | nil => exact hst
  | cons x t ih =>
    rw [List.foldl_cons]
    apply ih (fun r hr => hrec r (List.mem_cons_of_mem _ hr))
    intro k r hk
    by_cases hkx : k = x.Key
    · subst hkx
      rw [lookup_mergeRecord_self] at hk
      rcases mergeOutcome_cases resolver version current (storage.lookup x.Key) x with h | h
      · rw [h] at hk
        exact hst _ r hk
      · rw [h] at hk
        have hx := hrec x (List.mem_cons_self _ _)
        cases hk
        exact ⟨rfl, hx⟩
    · rw [lookup_mergeRecord_ne _ _ _ _ _ _ hkx] at hk
      exact hst k r hk

/-- A Map whose stored dots are covered has nothing to send relative to its own
version. -/
theorem Delta_own_Version_of_covered (m : Map V) (h : m.Covered) :
    (m.Delta m.Version).records = [] := by
  rw [List.eq_nil_iff_forall_not_mem]
  intro r hr
  rw [mem_Delta_records, get_Version] at hr
  obtain ⟨⟨k, hk⟩, hlt⟩ := hr
  exact absurd (h k r hk).2.2 (not_le.mpr hlt)

theorem covered_of_reachable (m : Map V) (h : Reachable m) : m.Covered := by
  induction h with
  | new id resolver =>
    intro k r hk
    cases hk
  | set m key value _ hwrap ih =>
    intro k r hk
    have hver : ∀ i : ID, VersionVector.get m.version i
        ≤ VersionVector.get (m.Set key value).version i := by
      intro i
      rw [get_version_Set]
      split
      · next hi =>
        rw [hi, Nat.mod_eq_of_lt hwrap]
        exact Nat.le_succ _
      · exact le_rfl
    by_cases hkk : k = key
    · subst hkk
      have hnew : (m.Set k value).storage.lookup k
          = some { Key := k, Value := value,
                   Dot := { SourceID := m.me,
                            Version := VersionVector.get (m.Set k value).version m.me } } := by
        simp [Map.Set, AList.lookup_insert]
      rw [hnew] at hk
      cases hk
      refine ⟨rfl, ?_, le_rfl⟩
      show 1 ≤ VersionVector.get (m.Set k value).version m.me
      rw [get_version_Set, if_pos rfl, Nat.mod_eq_of_lt hwrap]
      exact Nat.le_add_left _ _
    · have hold : (m.Set key value).storage.lookup k = m.storage.lookup k := by
        simp [Map.Set, AList.lookup_insert_ne hkk]
      rw [hold] at hk
      obtain ⟨h1, h2, h3⟩ := ih k r hk
      exact ⟨h1, h2, le_trans h3 (hver _)⟩
  | merge m p p2 since _ _ _ hle ihm ihp _ =>
    have hcov := foldl_mergeRecord_covered m.resolver m.version p2.version
      (fun i => VersionVector.get (mergeVersion m.version p2.version) i)
      (p.Delta since).records
      (by
        intro r hr
        rw [mem_Delta_records] at hr
        obtain ⟨⟨k, hk⟩, _⟩ := hr
        obtain ⟨_, h2, h3⟩ := ihp k r hk
        refine ⟨h2, ?_⟩
        show _ ≤ VersionVector.get (mergeVersion m.version p2.version) r.Dot.SourceID
        rw [get_mergeVersion]
        exact le_trans (le_trans h3 (hle _)) (le_max_right _ _))
      m.storage
      (by
        intro k r hk
        obtain ⟨h1, h2, h3⟩ := ihm k r hk
        refine ⟨h1, h2, ?_⟩
        show _ ≤ VersionVector.get (mergeVersion m.version p2.version) r.Dot.SourceID
        rw [get_mergeVersion]
        exact le_trans h3 (le_max_left _ _))
    exact hcov

/-- C20 (counterexample). The Map `bobWrapped` is reached from `New` by `2 ^ 64`
calls of `Set`; the record it stores under "dinner" has version 0, so its dots
are not covered in the sense of the claim (`1 ≤ r.Dot.Version` fails). -/
theorem C20_wrapped_record_has_version_zero :
    bobWrapped = (New "bob" lexicographicResolver).SetAll
      (List.replicate uint64Size ("dinner", some "ham")) ∧
    bobWrapped.storage.lookup "dinner"
        = some { Key := "dinner", Value := some "ham", Dot := { SourceID := "bob", Version := 0 } } ∧
    ¬ bobWrapped.Covered := by
  have hsize : uint64Size = 18446744073709551615 + 1 := by norm_num [uint64Size]
  have hlast : lastWrite (List.replicate uint64Size ("dinner", some "ham")) "dinner"
      = some (uint64Size, some "ham") := by
    rw [hsize]
    exact lastWrite_replicate _ _ _
  have hlook : bobWrapped.storage.lookup "dinner"
      = some { Key := "dinner", Value := some "ham", Dot := { SourceID := "bob", Version := 0 } } := by
    rw [bobWrapped, lookup_SetAll_New, hlast]
    simp only [Nat.mod_self]
  refine ⟨by rw [bobWrapped], hlook, fun hcov => ?_⟩
  have h := (hcov "dinner" _ hlook).2.1
  exact absurd h (by decide)

/-- C20 (amended). In every Map reachable from `New` by `Set` calls that do
not wrap the own counter (the counter is below `2 ^ 64 - 1` when `Set` is
called) and by `Merge` calls whose deltas were produced by the `Delta` operation
of Maps reachable in this way, every record `r` stored under a key `k` has
`r.Key = k` and `1 ≤ r.Dot.Version ≤` the Map's version-vector entry for
`r.Dot.SourceID`; consequently the Delta of such a Map relative to its own
`Version()` contains no records. -/
theorem C20_reachable_dots_covered (m : Map V) (h : Reachable m) :
    (∀ (k : String) (r : Record V), m.storage.lookup k = some r →
      r.Key = k ∧ 1 ≤ r.Dot.Version ∧
        r.Dot.Version ≤ VersionVector.get m.Version r.Dot.SourceID) ∧
    (m.Delta m.Version).records = [] := by
  have hcov := covered_of_reachable m h
  refine ⟨fun k r hk => ?_, Delta_own_Version_of_covered m hcov⟩
  rw [get_Version]
  exact hcov k r hk

theorem aliceTest_reachable : Reachable aliceTest :=
  Reachable.set _ _ _ (Reachable.new _ _) (by simp [New, uint64Size])

theorem bobTest_reachable :
    Reachable ((New "bob" (alwaysLeftResolver : ChooseLeftConflictResolver String)).Set "lunch"
      (some "ham")) :=
  Reachable.set _ _ _ (Reachable.new _ _) (by simp [New, uint64Size])

theorem aliceTest_merged_reachable : Reachable (aliceTest.Merge bobTestDelta) :=
  Reachable.merge aliceTest _ _ aliceTest.Version aliceTest_reachable bobTest_reachable
    bobTest_reachable (fun _ => le_rfl)

/-- Witness of C20: alice of `TestMergeUsesResolverFunc` after
`alice.Merge(bob.Delta(alice.Version()))`. -/
theorem C20_reachable_dots_covered_witness :
    Reachable (aliceTest.Merge bobTestDelta) ∧
    (∀ (k : String) (r : Record String),
      (aliceTest.Merge bobTestDelta).storage.lookup k = some r →
        r.Key = k ∧ 1 ≤ r.Dot.Version ∧
          r.Dot.Version
            ≤ VersionVector.get (aliceTest.Merge bobTestDelta).Version r.Dot.SourceID) ∧
    ((aliceTest.Merge bobTestDelta).Delta (aliceTest.Merge bobTestDelta).Version).records = [] :=
  ⟨aliceTest_merged_reachable,
    C20_reachable_dots_covered (aliceTest.Merge bobTestDelta) aliceTest_merged_reachable⟩

/-! ## C11: merging two concurrent deltas in either order -/

/-- A record the already-seen test passes over leaves the slot as it was. -/
theorem mergeOutcome_of_seen (resolver : ChooseLeftConflictResolver V)
    (version current : VersionVector) (old : Option (Record V)) (record : Record V)
    (h : record.Dot.Version < VersionVector.get version record.Dot.SourceID) :
    mergeOutcome resolver version current old record = old := by
  simp [mergeOutcome, h]

/-- A processed record is stored when nothing is stored under its key. -/
theorem mergeOutcome_of_none (resolver : ChooseLeftConflictResolver V)
    (version current : VersionVector) (record : Record V)
    (h : ¬ record.Dot.Version < VersionVector.get version record.Dot.SourceID) :
    mergeOutcome resolver version current none record = some record := by
  simp [mergeOutcome, h]

/-- A processed record is stored when `current` covers the local record. -/
theorem mergeOutcome_of_covered (resolver : ChooseLeftConflictResolver V)
    (version current : VersionVector) (loc record : Record V)
    (h : ¬ record.Dot.Version < VersionVector.get version record.Dot.SourceID)
    (hc : loc.Dot.Version ≤ VersionVector.get current loc.Dot.SourceID) :
    mergeOutcome resolver version current (some loc) record = some record := by
  simp [mergeOutcome, h, hc]

/-- A processed record meets a local record that `current` does not cover: the
resolver decides. -/
theorem mergeOutcome_of_conflict (resolver : ChooseLeftConflictResolver V)
    (version current : VersionVector) (loc record : Record V)
    (h : ¬ record.Dot.Version < VersionVector.get version record.Dot.SourceID)
    (hc : VersionVector.get current loc.Dot.SourceID < loc.Dot.Version) :
    mergeOutcome resolver version current (some loc) record
      = some (if resolver loc.Key loc record = true then loc else record) := by
  unfold mergeOutcome
  rw [if_neg h]
  simp only []
  rw [if_neg (not_le.mpr hc)]
  split <;> rfl

/-- A record that `current` does not cover is judged by the already-seen test
alike before and after the version vector is raised by `current`. -/
theorem seen_iff_of_not_covered (version current : VersionVector) (record : Record V)
    (h : VersionVector.get current record.Dot.SourceID < record.Dot.Version) :
    record.Dot.Version < VersionVector.get version record.Dot.SourceID ↔
      record.Dot.Version
        < VersionVector.get (mergeVersion version current) record.Dot.SourceID := by
  rw [get_mergeVersion]
  constructor
  · intro h1; exact lt_of_lt_of_le h1 (le_max_left _ _)
  · intro h1
    rcases lt_max_iff.mp h1 with h2 | h2
    · exact h2
    · exact absurd h2 (not_lt.mpr h.le)

/-- Two records with the same key, neither covered by the `current` of the
other one's delta, leave the same record under that key in either order, for a
resolver that satisfies the resolver contract, when the local record is absent,
covered by both `current` vectors, or covered by neither while the resolver is
transitive. -/
theorem mergeOutcome_comm (resolver : ChooseLeftConflictResolver V)
    (version c1 c2 : VersionVector) (old : Option (Record V)) (r1 r2 : Record V)
    (hkey : r1.Key = r2.Key)
    (h12 : VersionVector.get c2 r1.Dot.SourceID < r1.Dot.Version)
    (h21 : VersionVector.get c1 r2.Dot.SourceID < r2.Dot.Version)
    (hcontract : ∀ (key : String) (x y : Record V),
      (if resolver key x y = true then x else y) = (if resolver key y x = true then y else x))
    (hlocal : ∀ l : Record V, old = some l →
      (l.Dot.Version ≤ VersionVector.get c1 l.Dot.SourceID ∧
        l.Dot.Version ≤ VersionVector.get c2 l.Dot.SourceID) ∨
      (VersionVector.get c1 l.Dot.SourceID < l.Dot.Version ∧
        VersionVector.get c2 l.Dot.SourceID < l.Dot.Version ∧ l.Key = r1.Key ∧
        ∀ (key : String) (x y z : Record V),
          resolver key x y = true → resolver key y z = true → resolver key x z = true)) :
    mergeOutcome resolver (mergeVersion version c1) c2
        (mergeOutcome resolver version c1 old r1) r2
      = mergeOutcome resolver (mergeVersion version c2) c1
        (mergeOutcome resolver version c2 old r2) r1 := by
  rw [← mergeOutcome_congr resolver version (mergeVersion version c1) c2 _ r2
      (seen_iff_of_not_covered version c1 r2 h21),
    ← mergeOutcome_congr resolver version (mergeVersion version c2) c1 _ r1
      (seen_iff_of_not_covered version c2 r1 h12)]
  have hpair : (if resolver r1.Key r1 r2 = true then r1 else r2)
      = (if resolver r2.Key r2 r1 = true then r2 else r1) := by
    rw [← hkey]
    exact hcontract r1.Key r1 r2
  by_cases s1 : r1.Dot.Version < VersionVector.get version r1.Dot.SourceID
  · rw [mergeOutcome_of_seen _ _ _ old r1 s1, mergeOutcome_of_seen _ _ _ _ r1 s1]
  · by_cases s2 : r2.Dot.Version < VersionVector.get version r2.Dot.SourceID
    · rw [mergeOutcome_of_seen _ _ _ old r2 s2, mergeOutcome_of_seen _ _ _ _ r2 s2]
    · cases hold : old with
      | none =>
        rw [mergeOutcome_of_none _ _ _ r1 s1, mergeOutcome_of_none _ _ _ r2 s2,
          mergeOutcome_of_conflict _ _ _ r1 r2 s2 h12,
          mergeOutcome_of_conflict _ _ _ r2 r1 s1 h21, hpair]
      | some l =>
        rcases hlocal l hold with ⟨hc1, hc2⟩ | ⟨hn1, hn2, hlk, htrans⟩
        · rw [mergeOutcome_of_covered _ _ _ l r1 s1 hc1,
            mergeOutcome_of_covered _ _ _ l r2 s2 hc2,
            mergeOutcome_of_conflict _ _ _ r1 r2 s2 h12,
            mergeOutcome_of_conflict _ _ _ r2 r1 s1 h21, hpair]
        · rw [mergeOutcome_of_conflict _ _ _ l r1 s1 hn1,
            mergeOutcome_of_conflict _ _ _ l r2 s2 hn2, hlk]
          have hk2 : r2.Key = r1.Key := hkey.symm
          by_cases a : resolver r1.Key l r1 = true
          · by_cases b : resolver r1.Key l r2 = true
            · rw [if_pos a, if_pos b, mergeOutcome_of_conflict _ _ _ l r2 s2 hn2,
                mergeOutcome_of_conflict _ _ _ l r1 s1 hn1, hlk, if_pos a, if_pos b]
            · rw [if_pos a, if_neg b, mergeOutcome_of_conflict _ _ _ l r2 s2 hn2,
                mergeOutcome_of_conflict _ _ _ r2 r1 s1 h21, hlk, if_neg b, ← hpair]
              by_cases c : resolver r1.Key r1 r2 = true
              · exact absurd (htrans r1.Key l r1 r2 a c) b
              · rw [if_neg c]
          · by_cases b : resolver r1.Key l r2 = true
            · rw [if_neg a, if_pos b, mergeOutcome_of_conflict _ _ _ r1 r2 s2 h12,
                mergeOutcome_of_conflict _ _ _ l r1 s1 hn1, hlk, if_neg a, hpair]
              by_cases d : resolver r2.Key r2 r1 = true
              · rw [hk2] at d
                exact absurd (htrans r1.Key l r2 r1 b d) a
              · rw [if_neg d]
            · rw [if_neg a, if_neg b, mergeOutcome_of_conflict _ _ _ r1 r2 s2 h12,
                mergeOutcome_of_conflict _ _ _ r2 r1 s1 h21, hpair]

/-- The first loop of `Merge`, read at a key `k` carried by exactly one record
of the delta. -/
theorem lookup_Merge_of_mem_key (v : Map V) (delta : vvmap.Delta V) (r : Record V) (k : String)
    (hr : r ∈ delta.records) (hkey : r.Key = k)
    (huniq : ∀ x ∈ delta.records, x.Key = k → x = r) :
    (v.Merge delta).storage.lookup k
      = mergeOutcome v.resolver v.version delta.current (v.storage.lookup k) r := by
  subst hkey
  exact lookup_Merge_of_mem v delta r hr huniq

/-- Merging two concurrent deltas in either order leaves the same record under
every key. -/
theorem lookup_Merge_Merge_comm (m : Map V) (d1 d2 : vvmap.Delta V)
    (hnd1 : (d1.records.map (fun r => r.Key)).Nodup)
    (hnd2 : (d2.records.map (fun r => r.Key)).Nodup)
    (hcontract : ∀ (key : String) (x y : Record V),
      (if m.resolver key x y = true then x else y)
        = (if m.resolver key y x = true then y else x))
    (h12 : ∀ r ∈ d1.records, VersionVector.get d2.current r.Dot.SourceID < r.Dot.Version)
    (h21 : ∀ r ∈ d2.records, VersionVector.get d1.current r.Dot.SourceID < r.Dot.Version)
    (hlocal : ∀ r1 ∈ d1.records, ∀ r2 ∈ d2.records, r1.Key = r2.Key →
      ∀ l : Record V, m.storage.lookup r1.Key = some l →
        (l.Dot.Version ≤ VersionVector.get d1.current l.Dot.SourceID ∧
          l.Dot.Version ≤ VersionVector.get d2.current l.Dot.SourceID) ∨
        (VersionVector.get d1.current l.Dot.SourceID < l.Dot.Version ∧
          VersionVector.get d2.current l.Dot.SourceID < l.Dot.Version ∧ l.Key = r1.Key ∧
          ∀ (key : String) (x y z : Record V),
            m.resolver key x y = true → m.resolver key y z = true →
              m.resolver key x z = true))
    (k : String) :
    ((m.Merge d1).Merge d2).storage.lookup k = ((m.Merge d2).Merge d1).storage.lookup k := by
  by_cases hk1 : ∃ r ∈ d1.records, r.Key = k
  · obtain ⟨r1, hr1, hkey1⟩ := hk1
    have hu1 : ∀ x ∈ d1.records, x.Key = k → x = r1 :=
      fun x hx hxk => List.inj_on_of_nodup_map hnd1 hx hr1 (hxk.trans hkey1.symm)
    by_cases hk2 : ∃ r ∈ d2.records, r.Key = k
    · obtain ⟨r2, hr2, hkey2⟩ := hk2
      have hu2 : ∀ x ∈ d2.records, x.Key = k → x = r2 :=
        fun x hx hxk => List.inj_on_of_nodup_map hnd2 hx hr2 (hxk.trans hkey2.symm)
      rw [lookup_Merge_of_mem_key (m.Merge d1) d2 r2 k hr2 hkey2 hu2,
        lookup_Merge_of_mem_key m d1 r1 k hr1 hkey1 hu1,
        lookup_Merge_of_mem_key (m.Merge d2) d1 r1 k hr1 hkey1 hu1,
        lookup_Merge_of_mem_key m d2 r2 k hr2 hkey2 hu2]
      apply mergeOutcome_comm m.resolver m.version d1.current d2.current _ r1 r2
        (hkey1.trans hkey2.symm) (h12 r1 hr1) (h21 r2 hr2) hcontract
      intro l hl
      rw [← hkey1] at hl
      exact hlocal r1 hr1 r2 hr2 (hkey1.trans hkey2.symm) l hl
    · have hn2 : ∀ r ∈ d2.records, r.Key ≠ k := fun r hr h => hk2 ⟨r, hr, h⟩
      rw [lookup_Merge_of_not_mem _ d2 k hn2,
        lookup_Merge_of_mem_key m d1 r1 k hr1 hkey1 hu1,
        lookup_Merge_of_mem_key (m.Merge d2) d1 r1 k hr1 hkey1 hu1,
        lookup_Merge_of_not_mem _ d2 k hn2]
      exact mergeOutcome_congr _ _ _ _ _ _ (seen_iff_of_not_covered _ _ r1 (h12 r1 hr1))
  · have hn1 : ∀ r ∈ d1.records, r.Key ≠ k := fun r hr h => hk1 ⟨r, hr, h⟩
    by_cases hk2 : ∃ r ∈ d2.records, r.Key = k
    · obtain ⟨r2, hr2, hkey2⟩ := hk2
      have hu2 : ∀ x ∈ d2.records, x.Key = k → x = r2 :=
        fun x hx hxk => List.inj_on_of_nodup_map hnd2 hx hr2 (hxk.trans hkey2.symm)
      rw [lookup_Merge_of_mem_key (m.Merge d1) d2 r2 k hr2 hkey2 hu2,
        lookup_Merge_of_not_mem _ d1 k hn1, lookup_Merge_of_not_mem _ d1 k hn1,
        lookup_Merge_of_mem_key m d2 r2 k hr2 hkey2 hu2]
      exact (mergeOutcome_congr _ _ _ _ _ _
        (seen_iff_of_not_covered _ _ r2 (h21 r2 hr2))).symm
    · have hn2 : ∀ r ∈ d2.records, r.Key ≠ k := fun r hr h => hk2 ⟨r, hr, h⟩
      rw [lookup_Merge_of_not_mem _ d2 k hn2, lookup_Merge_of_not_mem _ d1 k hn1,
        lookup_Merge_of_not_mem _ d1 k hn1, lookup_Merge_of_not_mem _ d2 k hn2]

/-- C11 (amended). For every Map `m`, every two Deltas `d1`, `d2` and every
resolver, merging `d1` then `d2` yields the same version vector as merging `d2`
then `d1`.  For a resolver that satisfies the resolver contract (it selects the
same concrete record whichever of the two is passed as left) the storage is the
same too (the same record, or none, under every key; the same entries up to the
order of the Go map) when the deltas, each with pairwise distinct keys as
`Delta` produces them, are concurrent: no record of one delta is covered by the
other delta's `current` (`r.Dot.Version > current[r.Dot.SourceID]`); and, for
every key carried by a record of both deltas, the record `m` stores under that
key, if any, is covered by both `current` vectors, or is covered by neither,
carries that key and meets a resolver that is transitive. -/
theorem C11_merge_order_independent_for_concurrent_deltas (m : Map V)
    (d1 d2 : vvmap.Delta V) :
    (∀ i : ID, ((m.Merge d1).Merge d2).version.lookup i
      = ((m.Merge d2).Merge d1).version.lookup i) ∧
    (∀ i : ID, VersionVector.get ((m.Merge d1).Merge d2).Version i
      = VersionVector.get ((m.Merge d2).Merge d1).Version i) ∧
    ((d1.records.map (fun r => r.Key)).Nodup →
      (d2.records.map (fun r => r.Key)).Nodup →
      (∀ (key : String) (x y : Record V),
        (if m.resolver key x y = true then x else y)
          = (if m.resolver key y x = true then y else x)) →
      (∀ r ∈ d1.records, VersionVector.get d2.current r.Dot.SourceID < r.Dot.Version) →
      (∀ r ∈ d2.records, VersionVector.get d1.current r.Dot.SourceID < r.Dot.Version) →
      (∀ r1 ∈ d1.records, ∀ r2 ∈ d2.records, r1.Key = r2.Key →
        ∀ l : Record V, m.storage.lookup r1.Key = some l →
          (l.Dot.Version ≤ VersionVector.get d1.current l.Dot.SourceID ∧
            l.Dot.Version ≤ VersionVector.get d2.current l.Dot.SourceID) ∨
          (VersionVector.get d1.current l.Dot.SourceID < l.Dot.Version ∧
            VersionVector.get d2.current l.Dot.SourceID < l.Dot.Version ∧
            l.Key = r1.Key ∧
            ∀ (key : String) (x y z : Record V),
              m.resolver key x y = true → m.resolver key y z = true →
                m.resolver key x z = true)) →
      (∀ k : String, ((m.Merge d1).Merge d2).storage.lookup k
        = ((m.Merge d2).Merge d1).storage.lookup k) ∧
      ((m.Merge d1).Merge d2).storage.entries.Perm ((m.Merge d2).Merge d1).storage.entries) := by
  have hver : ∀ i : ID, ((m.Merge d1).Merge d2).version.lookup i
      = ((m.Merge d2).Merge d1).version.lookup i :=
    fun i => lookup_mergeVersion_comm m.version d1.current d2.current i
  refine ⟨hver, fun i => ?_, fun hnd1 hnd2 hcontract h12 h21 hlocal => ?_⟩
  · rw [get_Version, get_Version]
    unfold VersionVector.get
    rw [hver i]
  · have hlook := lookup_Merge_Merge_comm m d1 d2 hnd1 hnd2 hcontract h12 h21 hlocal
    exact ⟨hlook, entries_perm_of_lookup _ _ hlook⟩

/-- Choosing left by rank is transitive. -/
theorem rankResolver_trans (key : String) (x y z : Record Nat)
    (hxy : rankResolver key x y = true) (hyz : rankResolver key y z = true) :
    rankResolver key x z = true := by
  simp only [rankResolver, decide_eq_true_eq] at hxy hyz ⊢
  exact lt_trans hyz hxy

theorem timFreshDelta_eq : timFreshDelta =
    { since := aliceTwo.Version, current := AList.singleton "tim" 1,
      records := [{ Key := "k", Value := some 1, Dot := { SourceID := "tim", Version := 1 } }] } := by
  have h : ("tim" : String) ≠ "alice" := by decide
  unfold timFreshDelta timFresh aliceTwo
  rw [Set_New, Set_New]
  simp [Map.Delta, VersionVector.get_singleton, h]

/-- Witness of C11: alice, who wrote 2 under "k", merges the deltas of bob (3
under "k") and of tim (1 under "k"), three concurrent writes to one key, in
both orders; the resolver chooses by rank. -/
theorem C11_merge_order_independent_for_concurrent_deltas_witness :
    (bobThreeDelta.records.map (fun r => r.Key)).Nodup ∧
    (timFreshDelta.records.map (fun r => r.Key)).Nodup ∧
    (∀ r ∈ bobThreeDelta.records,
      VersionVector.get timFreshDelta.current r.Dot.SourceID < r.Dot.Version) ∧
    (∀ r ∈ timFreshDelta.records,
      VersionVector.get bobThreeDelta.current r.Dot.SourceID < r.Dot.Version) ∧
    aliceTwo.storage.lookup "k"
      = some { Key := "k", Value := some 2, Dot := { SourceID := "alice", Version := 1 } } ∧
    (∀ k : String, ((aliceTwo.Merge bobThreeDelta).Merge timFreshDelta).storage.lookup k
      = ((aliceTwo.Merge timFreshDelta).Merge bobThreeDelta).storage.lookup k) ∧
    ((aliceTwo.Merge bobThreeDelta).Merge timFreshDelta).storage.entries.Perm
      ((aliceTwo.Merge timFreshDelta).Merge bobThreeDelta).storage.entries := by
  have hbt : ("bob" : String) ≠ "tim" := by decide
  have htb : ("tim" : String) ≠ "bob" := by decide
  have hab : ("alice" : String) ≠ "bob" := by decide
  have hat : ("alice" : String) ≠ "tim" := by decide
  have hnd1 : (bobThreeDelta.records.map (fun r => r.Key)).Nodup := by
    rw [bobThreeDelta_eq]; simp
  have hnd2 : (timFreshDelta.records.map (fun r => r.Key)).Nodup := by
    rw [timFreshDelta_eq]; simp
  have h12 : ∀ r ∈ bobThreeDelta.records,
      VersionVector.get timFreshDelta.current r.Dot.SourceID < r.Dot.Version := by
    rw [bobThreeDelta_eq, timFreshDelta_eq]
    simp [VersionVector.get_singleton, hbt]
  have h21 : ∀ r ∈ timFreshDelta.records,
      VersionVector.get bobThreeDelta.current r.Dot.SourceID < r.Dot.Version := by
    rw [bobThreeDelta_eq, timFreshDelta_eq]
    simp [VersionVector.get_singleton, htb]
  have hl : aliceTwo.storage.lookup "k"
      = some { Key := "k", Value := some 2, Dot := { SourceID := "alice", Version := 1 } } := by
    unfold aliceTwo
    rw [Set_New]
    simp [lookup_singleton]
  have hlocal : ∀ r1 ∈ bobThreeDelta.records, ∀ r2 ∈ timFreshDelta.records, r1.Key = r2.Key →
      ∀ l : Record Nat, aliceTwo.storage.lookup r1.Key = some l →
        (l.Dot.Version ≤ VersionVector.get bobThreeDelta.current l.Dot.SourceID ∧
          l.Dot.Version ≤ VersionVector.get timFreshDelta.current l.Dot.SourceID) ∨
        (VersionVector.get bobThreeDelta.current l.Dot.SourceID < l.Dot.Version ∧
          VersionVector.get timFreshDelta.current l.Dot.SourceID < l.Dot.Version ∧
          l.Key = r1.Key ∧
          ∀ (key : String) (x y z : Record Nat),
            aliceTwo.resolver key x y = true → aliceTwo.resolver key y z = true →
              aliceTwo.resolver key x z = true) := by
    intro r1 hr1 r2 _ _ l hlk
    rw [bobThreeDelta_eq] at hr1
    have hr1eq := List.mem_singleton.mp hr1
    subst hr1eq
    rw [hl] at hlk
    cases hlk
    right
    rw [bobThreeDelta_eq, timFreshDelta_eq]
    refine ⟨?_, ?_, rfl, rankResolver_trans⟩
    · simp [VersionVector.get_singleton, hab]
    · simp [VersionVector.get_singleton, hat]
  exact ⟨hnd1, hnd2, h12, h21, hl,
    (C11_merge_order_independent_for_concurrent_deltas aliceTwo bobThreeDelta
      timFreshDelta).2.2 hnd1 hnd2 rankResolver_contract h12 h21 hlocal⟩

theorem carolDelta_eq : carolDelta =
    { since := aliceTwo.Version, current := AList.singleton "bob" 1,
      records := [{ Key := "k", Value := some 3, Dot := { SourceID := "bob", Version := 1 } }] } := by
  have h : ("bob" : String) ≠ "alice" := by decide
  have h2 : ("bob" : String) ≠ "carol" := by decide
  unfold carolDelta carolRelay bobThree aliceTwo
  rw [Set_New, Set_New]
  simp [Map.Delta, Map.Merge, New, mergeRecord, mergeVersion, VersionVector.get_singleton, h,
    h2, Map.Version]

theorem timOne_eq : timOne =
    { resolver := rankResolver,
      storage := AList.singleton "k"
        { Key := "k", Value := some 1, Dot := { SourceID := "tim", Version := 1 } },
      version := AList.insert "tim" 1 (AList.singleton "bob" 2),
      me := "tim" } := by
  have h : ("tim" : String) ≠ "bob" := by decide
  unfold timOne bobZero bobThree
  rw [Set_New]
  simp [Map.Delta, Map.Merge, Map.Set, New, mergeRecord, mergeVersion, uint64Size,
    VersionVector.get_singleton, VersionVector.get_insert, h, Map.Version]

theorem timOneDelta_eq : timOneDelta =
    { since := aliceTwo.Version, current := AList.insert "tim" 1 (AList.singleton "bob" 2),
      records := [{ Key := "k", Value := some 1, Dot := { SourceID := "tim", Version := 1 } }] } := by
  have h : ("tim" : String) ≠ "alice" := by decide
  unfold timOneDelta
  rw [timOne_eq]
  unfold aliceTwo
  rw [Set_New]
  simp [Map.Delta, VersionVector.get_singleton, h]

/-- C11 (counterexample). The resolver `rankResolver` satisfies the resolver
contract on all records.  Bob writes 3 under "k" and carol merges bob's delta;
bob writes 0 under "k"; tim merges bob's delta and writes 1; alice writes 2.
With `d1 := carol.Delta(alice.Version())` (bob's first write, dot (bob, 1)) and
`d2 := tim.Delta(alice.Version())` (whose `current` holds 2 for bob), alice
ends with 1 under "k" after merging `d1` then `d2`, and with her own 2 after
merging `d2` then `d1`. -/
theorem C11_merge_order_changes_storage :
    (∀ (key : String) (x y : Record Nat),
      (if rankResolver key x y = true then x else y)
        = (if rankResolver key y x = true then y else x)) ∧
    carolDelta.records
      = [{ Key := "k", Value := some 3, Dot := { SourceID := "bob", Version := 1 } }] ∧
    timOneDelta.records
      = [{ Key := "k", Value := some 1, Dot := { SourceID := "tim", Version := 1 } }] ∧
    VersionVector.get timOneDelta.current "bob" = 2 ∧
    ((aliceTwo.Merge carolDelta).Merge timOneDelta).Get "k" = some 1 ∧
    ((aliceTwo.Merge timOneDelta).Merge carolDelta).Get "k" = some 2 ∧
    ((aliceTwo.Merge carolDelta).Merge timOneDelta).storage.lookup "k"
      ≠ ((aliceTwo.Merge timOneDelta).Merge carolDelta).storage.lookup "k" := by
  have hab : ("alice" : String) ≠ "bob" := by decide
  have hat : ("alice" : String) ≠ "tim" := by decide
  have hbt : ("bob" : String) ≠ "tim" := by decide
  have r23 := rankResolver_of_value_lt "k"
    { Key := "k", Value := some 3, Dot := { SourceID := "bob", Version := 1 } }
    { Key := "k", Value := some 2, Dot := { SourceID := "alice", Version := 1 } } 3 2 rfl rfl
    (by decide)
  have r12 := rankResolver_of_value_lt "k"
    { Key := "k", Value := some 2, Dot := { SourceID := "alice", Version := 1 } }
    { Key := "k", Value := some 1, Dot := { SourceID := "tim", Version := 1 } } 2 1 rfl rfl
    (by decide)
  have h1 : ((aliceTwo.Merge carolDelta).Merge timOneDelta).storage.lookup "k"
      = some { Key := "k", Value := some 1, Dot := { SourceID := "tim", Version := 1 } } := by
    rw [carolDelta_eq, timOneDelta_eq]
    unfold aliceTwo
    rw [Set_New]
    simp [Map.Merge, mergeRecord, mergeVersion, VersionVector.get_singleton,
      VersionVector.get_insert, lookup_singleton, AList.lookup_insert, hab, hat, hbt,
      Ne.symm hab, Ne.symm hat, Ne.symm hbt, r23.2, r12.1]
  have h2 : ((aliceTwo.Merge timOneDelta).Merge carolDelta).storage.lookup "k"
      = some { Key := "k", Value := some 2, Dot := { SourceID := "alice", Version := 1 } } := by
    rw [carolDelta_eq, timOneDelta_eq]
    unfold aliceTwo
    rw [Set_New]
    simp [Map.Merge, mergeRecord, mergeVersion, VersionVector.get_singleton,
      VersionVector.get_insert, lookup_singleton, AList.lookup_insert, hab, hat, hbt,
      Ne.symm hab, Ne.symm hat, Ne.symm hbt, r23.2, r12.1]
  refine ⟨rankResolver_contract, ?_, ?_, ?_, ?_, ?_, ?_⟩
  · rw [carolDelta_eq]
  · rw [timOneDelta_eq]
  · rw [timOneDelta_eq]
    simp [VersionVector.get_insert, VersionVector.get_singleton, hbt]
  · simp [Map.Get, h1]
  · simp [Map.Get, h2]
  · rw [h1, h2]
    simp

theorem bobSeenDelta_eq : bobSeenDelta =
    { since := aliceThree.Version, current := AList.insert "bob" 1 (AList.singleton "alice" 1),
      records := [{ Key := "k", Value := some 1, Dot := { SourceID := "bob", Version := 1 } }] } := by
  have h : ("bob" : String) ≠ "alice" := by decide
  unfold bobSeenDelta bobSeen aliceThree
  rw [Set_New]
  simp [Map.Delta, Map.Merge, Map.Set, New, mergeRecord, mergeVersion, uint64Size,
    VersionVector.get_singleton, VersionVector.get_insert, h, Map.Version]

theorem timTwoDelta_eq : timTwoDelta =
    { since := aliceThree.Version, current := AList.singleton "tim" 1,
      records := [{ Key := "k", Value := some 2, Dot := { SourceID := "tim", Version := 1 } }] } := by
  have h : ("tim" : String) ≠ "alice" := by decide
  unfold timTwoDelta aliceThree
  rw [Set_New, Set_New]
  simp [Map.Delta, VersionVector.get_singleton, h]

/-- Two concurrent deltas and a local record that only one of them covers:
alice writes 3 under "k"; bob merges alice's delta and writes 1; tim writes 2.
Neither record of the deltas of bob and tim is covered by the other delta, the
resolver chooses by rank, and alice ends with 2 after merging bob's delta then
tim's, and with 1 after merging tim's delta then bob's. -/
theorem merge_order_local_covered_by_one_delta :
    (∀ r ∈ bobSeenDelta.records,
      VersionVector.get timTwoDelta.current r.Dot.SourceID < r.Dot.Version) ∧
    (∀ r ∈ timTwoDelta.records,
      VersionVector.get bobSeenDelta.current r.Dot.SourceID < r.Dot.Version) ∧
    VersionVector.get bobSeenDelta.current "alice" = 1 ∧
    VersionVector.get timTwoDelta.current "alice" = 0 ∧
    ((aliceThree.Merge bobSeenDelta).Merge timTwoDelta).Get "k" = some 2 ∧
    ((aliceThree.Merge timTwoDelta).Merge bobSeenDelta).Get "k" = some 1 := by
  have hab : ("alice" : String) ≠ "bob" := by decide
  have hat : ("alice" : String) ≠ "tim" := by decide
  have hbt : ("bob" : String) ≠ "tim" := by decide
  have r32 := rankResolver_of_value_lt "k"
    { Key := "k", Value := some 3, Dot := { SourceID := "alice", Version := 1 } }
    { Key := "k", Value := some 2, Dot := { SourceID := "tim", Version := 1 } } 3 2 rfl rfl
    (by decide)
  have r21 := rankResolver_of_value_lt "k"
    { Key := "k", Value := some 2, Dot := { SourceID := "tim", Version := 1 } }
    { Key := "k", Value := some 1, Dot := { SourceID := "bob", Version := 1 } } 2 1 rfl rfl
    (by decide)
  refine ⟨?_, ?_, ?_, ?_, ?_, ?_⟩
  · rw [bobSeenDelta_eq, timTwoDelta_eq]
    simp [VersionVector.get_singleton, hbt]
  · rw [bobSeenDelta_eq, timTwoDelta_eq]
    simp [VersionVector.get_singleton, VersionVector.get_insert, Ne.symm hbt, Ne.symm hat]
  · rw [bobSeenDelta_eq]
    simp [VersionVector.get_singleton, VersionVector.get_insert, hab]
  · rw [timTwoDelta_eq]
    simp [VersionVector.get_singleton, hat]
  · rw [bobSeenDelta_eq, timTwoDelta_eq]
    unfold aliceThree
    rw [Set_New]
    simp [Map.Get, Map.Merge, mergeRecord, mergeVersion, VersionVector.get_singleton,
      VersionVector.get_insert, lookup_singleton, AList.lookup_insert, hab, hat, hbt,
      Ne.symm hab, Ne.symm hat, Ne.symm hbt, r32.1, r21.2]
  · rw [bobSeenDelta_eq, timTwoDelta_eq]
    unfold aliceThree
    rw [Set_New]
    simp [Map.Get, Map.Merge, mergeRecord, mergeVersion, VersionVector.get_singleton,
      VersionVector.get_insert, lookup_singleton, AList.lookup_insert, hab, hat, hbt,
      Ne.symm hab, Ne.symm hat, Ne.symm hbt, r32.1, r21.2]

/-- The cyclic resolver satisfies the resolver contract. -/
theorem cyclicResolver_contract (key : String) (x y : Record Nat) :
    (if cyclicResolver key x y = true then x else y)
      = (if cyclicResolver key y x = true then y else x) := by
  unfold cyclicResolver
  by_cases h1 : x.Value = some 1 ∧ y.Value = some 3
  · have h2 : ¬ (y.Value = some 1 ∧ x.Value = some 3) := by
      intro h; rw [h1.1] at h; exact absurd h.2 (by decide)
    simp [h1, h2]
  · by_cases h3 : x.Value = some 3 ∧ y.Value = some 1
    · have h4 : ¬ (y.Value = some 3 ∧ x.Value = some 1) := by
        intro h; rw [h3.1] at h; exact absurd h.2 (by decide)
      simp [h3, h4]
    · have h5 : ¬ (y.Value = some 1 ∧ x.Value = some 3) := fun h => h3 ⟨h.2, h.1⟩
      have h6 : ¬ (y.Value = some 3 ∧ x.Value = some 1) := fun h => h1 ⟨h.2, h.1⟩
      rw [if_neg h1, if_neg h3, if_neg h5, if_neg h6]
      exact rankResolver_contract key x y

/-- Three concurrent writes to one key and a resolver that satisfies the
resolver contract without being transitive: alice wrote 2, bob 3, tim 1.  Alice
ends with 1 after merging bob's delta then tim's, and with 3 after merging tim's
delta then bob's. -/
theorem merge_order_cyclic_resolver :
    (∀ (key : String) (x y : Record Nat),
      (if cyclicResolver key x y = true then x else y)
        = (if cyclicResolver key y x = true then y else x)) ∧
    ((aliceCyclic.Merge bobThreeDelta).Merge timFreshDelta).Get "k" = some 1 ∧
    ((aliceCyclic.Merge timFreshDelta).Merge bobThreeDelta).Get "k" = some 3 := by
  have hab : ("alice" : String) ≠ "bob" := by decide
  have hat : ("alice" : String) ≠ "tim" := by decide
  have hbt : ("bob" : String) ≠ "tim" := by decide
  have r23 := rankResolver_of_value_lt "k"
    { Key := "k", Value := some 3, Dot := { SourceID := "bob", Version := 1 } }
    { Key := "k", Value := some 2, Dot := { SourceID := "alice", Version := 1 } } 3 2 rfl rfl
    (by decide)
  have r12 := rankResolver_of_value_lt "k"
    { Key := "k", Value := some 2, Dot := { SourceID := "alice", Version := 1 } }
    { Key := "k", Value := some 1, Dot := { SourceID := "tim", Version := 1 } } 2 1 rfl rfl
    (by decide)
  refine ⟨cyclicResolver_contract, ?_, ?_⟩
  · rw [bobThreeDelta_eq, timFreshDelta_eq]
    unfold aliceCyclic
    rw [Set_New]
    simp [Map.Get, Map.Merge, mergeRecord, mergeVersion, VersionVector.get_singleton,
      VersionVector.get_insert, lookup_singleton, AList.lookup_insert, hab, hat, hbt,
      Ne.symm hab, Ne.symm hat, Ne.symm hbt, cyclicResolver, r23.2, r12.1]
  · rw [bobThreeDelta_eq, timFreshDelta_eq]
    unfold aliceCyclic
    rw [Set_New]
    simp [Map.Get, Map.Merge, mergeRecord, mergeVersion, VersionVector.get_singleton,
      VersionVector.get_insert, lookup_singleton, AList.lookup_insert, hab, hat, hbt,
      Ne.symm hab, Ne.symm hat, Ne.symm hbt, cyclicResolver, r23.2, r12.1]

end vvmap
